import Mathlib

/-!
Verification of the element/isotope model and formula algebra of
`alphabase/constants/atom.py`.

The Python module is shallowly embedded below:
* floats are modelled as rationals (`ℚ`); all comparisons used by the code
  (`>=`, `argmax`) are order-only, so this is faithful for the properties
  proved here;
* numpy arrays are `List ℚ` / `List ℤ`; fancy-index assignment, negative
  index wrapping and slice clamping are modelled explicitly;
* the module-level dictionaries (`CHEM_INFO_DICT`, `CHEM_MONO_MASS`, ...)
  become an explicit `AtomState` record threaded through the operations;
* Python code that can raise (`KeyError`, `IndexError`, `ValueError`)
  returns `Option`.
-/

/-- `np.round` rounds half to even (banker's rounding), unlike Mathlib's
`round`.  Returns the rounded value as an integer (`np.round(...).astype(int)`). -/
def npRound (q : ℚ) : ℤ :=
  if q - ⌊q⌋ < 1/2 then ⌊q⌋
  else if 1/2 < q - ⌊q⌋ then ⌊q⌋ + 1
  else if 2 ∣ ⌊q⌋ then ⌊q⌋ else ⌊q⌋ + 1

/-- Resolve a (possibly negative) numpy index against an array of length
`len`: indices in `[-len, len)` are valid, negative ones wrap. -/
def npIndex (len : ℕ) (i : ℤ) : Option ℕ :=
  if 0 ≤ i ∧ i < (len : ℤ) then some i.toNat
  else if -(len : ℤ) ≤ i ∧ i < 0 then some (i + len).toNat
  else none

/-- Single-element numpy assignment `a[i] = v` (with wrapping / bounds check). -/
def npSet (l : List ℚ) (i : ℤ) (v : ℚ) : Option (List ℚ) :=
  match npIndex l.length i with
  | some n => some (l.set n v)
  | none => none

/-- Fancy-index assignment `a = np.zeros(len); a[pos] = vals` where
`pos`/`vals` are parallel lists.  Duplicate positions keep the last value,
as numpy does; an out-of-range position is an error. -/
def scatter (len : ℕ) (pv : List (ℤ × ℚ)) : Option (List ℚ) :=
  pv.foldlM (fun acc p => npSet acc p.1 p.2) (List.replicate len 0)

/-- `np.argmax`: index of the first maximal entry (0 on the empty list). -/
def argmaxAux : List ℚ → ℕ → ℕ → ℚ → ℕ
  | [], _, best, _ => best
  | x :: t, i, best, bv => if bv < x then argmaxAux t (i+1) i x else argmaxAux t (i+1) best bv

/-- First index attaining the maximum of the list (numpy `argmax`). -/
def argmaxQ : List ℚ → ℕ
  | [] => 0
  | x :: t => argmaxAux t 1 0 x

/-- Resolve one endpoint of a Python slice `l[s:e]`: negative endpoints are
offset by the length, then clamped into `[0, len]`. -/
def sliceIdx (len : ℕ) (i : ℤ) : ℕ :=
  if i < 0 then (max (i + len) 0).toNat else min i.toNat len

/-- Python/numpy slice `l[s:e]`. -/
def pySlice (l : List ℚ) (s e : ℤ) : List ℚ :=
  (l.drop (sliceIdx l.length s)).take (sliceIdx l.length e - sliceIdx l.length s)

/-- The `while` loop of `truncate_isotope`, fuel-indexed.  State is the pair
`(trunc_start, trunc_end)`; one iteration widens the window by one entry,
toward the side whose next abundance is not smaller (ties widen the end). -/
def truncLoop (maxLen : ℕ) (isos : List ℚ) : ℕ → ℤ → ℤ → ℤ × ℤ
  | 0, s, e => (s, e)
  | fuel + 1, s, e =>
    if 0 ≤ s ∧ e < (isos.length : ℤ) ∧ e - s - 1 < (maxLen : ℤ) then
      if isos.getD s.toNat 0 ≤ isos.getD e.toNat 0 then
        truncLoop maxLen isos fuel s (e + 1)
      else
        truncLoop maxLen isos fuel (s - 1) e
    else (s, e)

/-- `truncate_isotope(isotopes, mono_idx)` from `atom.py`: returns
`(new mono index, window start, window end)`.  The loop needs at most
`maxLen` steps (each step grows the window, which the loop keeps below
`maxLen`), so fuel `maxLen + 1` is always sufficient. -/
def truncate_isotope (maxLen : ℕ) (isos : List ℚ) (mono : ℤ) : ℤ × ℤ × ℤ :=
  let p := truncLoop maxLen isos (maxLen + 1) (mono - 1) (mono + 1)
  let s := p.1
  let e := p.2
  let q : ℤ × ℤ :=
    if e - s - 1 < (maxLen : ℤ) then
      if s = -1 then (s, (maxLen : ℤ))
      else if e = (isos.length : ℤ) then ((isos.length : ℤ) - maxLen - 1, e)
      else (s, e)
    else (s, e)
  (mono - q.1 - 1, q.1 + 1, q.2)

/-- One entry of `CHEM_INFO_DICT`: raw isotope abundances and masses. -/
structure ElemInfo where
  abundance : List ℚ
  mass : List ℚ
deriving DecidableEq, Repr

/-- The per-element derived model: `CHEM_MONO_MASS[e]`, `CHEM_ISOTOPE_DIST[e]`
and `CHEM_MONO_IDX[e]`. -/
structure ElemEntry where
  monoMass : ℚ
  dist : List ℚ
  monoIdx : ℤ
deriving DecidableEq, Repr

/-- `(mass, abundance)` pairs sorted by ascending mass.  The code sorts with
`np.argsort` over the masses and indexes both arrays by the result; when the
abundance list is longer than the mass list only its first `len(mass)`
entries are reachable.  (`np.argsort` is not stable on exactly equal masses;
a stable sort is used here, which agrees whenever the masses are distinct.) -/
def sortedMassAbund (rec : ElemInfo) : List (ℚ × ℚ) :=
  List.insertionSort (fun p q : ℚ × ℚ => p.1 ≤ q.1)
    (rec.mass.zip (rec.abundance.take rec.mass.length))

/-- `_mass_pos` after normalisation: rounded sorted masses, shifted so the
first entry is 0. -/
def posNOf (rec : ElemInfo) : List ℤ :=
  ((sortedMassAbund rec).map (fun p => npRound p.1)).map
    (fun x => x - ((sortedMassAbund rec).map (fun p => npRound p.1)).headD 0)

/-- `_mass_pos[-1] - _mass_pos[0] + 1`: the dense envelope span. -/
def spanOf (rec : ElemInfo) : ℤ :=
  (posNOf rec).getLastD 0 - (posNOf rec).headD 0 + 1

/-- Dense abundance envelope of length `len` (`_isos` in `reset_elements`). -/
def denseIsosOf (rec : ElemInfo) (len : ℕ) : Option (List ℚ) :=
  scatter len ((posNOf rec).zip ((sortedMassAbund rec).map Prod.snd))

/-- Dense mass array of length `len` (`_masses` in `reset_elements`). -/
def denseMassesOf (rec : ElemInfo) (len : ℕ) : Option (List ℚ) :=
  scatter len ((posNOf rec).zip ((sortedMassAbund rec).map Prod.fst))

/-- The per-element body of `reset_elements`: sort, densify, locate the mono
peak, and truncate when the span exceeds `maxLen`.  `none` models the Python
exceptions raised on an empty mass list (`IndexError` on `_mass_pos[0]`) or a
mass list longer than the abundance list (`IndexError` in fancy indexing). -/
def buildElem (maxLen : ℕ) (rec : ElemInfo) : Option ElemEntry :=
  if rec.mass.length = 0 then none
  else if rec.abundance.length < rec.mass.length then none
  else if spanOf rec ≤ (maxLen : ℤ) then
    (denseIsosOf rec maxLen).bind fun isos =>
    (denseMassesOf rec maxLen).bind fun masses =>
    let mono := argmaxQ isos
    some ⟨masses.getD mono 0, isos, (mono : ℤ)⟩
  else
    (denseIsosOf rec (spanOf rec).toNat).bind fun isos =>
    (denseMassesOf rec (spanOf rec).toNat).bind fun masses =>
    let mono := argmaxQ isos
    let t := truncate_isotope maxLen isos (mono : ℤ)
    some ⟨masses.getD mono 0, pySlice isos t.2.1 t.2.2, t.1⟩

/-- The dense envelope span as the claim states it: `round(mass[-1]) -
round(mass[0]) + 1` over the sorted isotope masses. -/
def originalSpan (rec : ElemInfo) : ℤ :=
  let sm := (sortedMassAbund rec).map Prod.fst
  npRound (sm.getLastD 0) - npRound (sm.headD 0) + 1

/-! ### Python dictionaries as association lists

A Python `dict` is an insertion-ordered map with unique keys; the model is an
association list.  Keys are `List Char` (Python `str`). -/

/-- `d[k]` lookup: first (and, for a real dict, only) binding of `k`. -/
def assocLookup {α : Type} : List (List Char × α) → List Char → Option α
  | [], _ => none
  | (k, v) :: t, key => if k = key then some v else assocLookup t key

/-- `d[k] = v`: overwrite in place if present (keeping the key's position,
as Python dicts do), otherwise append. -/
def dUpd {α : Type} : List (List Char × α) → List Char → α → List (List Char × α)
  | [], key, v => [(key, v)]
  | (k, w) :: t, key, v => if k = key then (k, v) :: t else (k, w) :: dUpd t key v

/-- The module-level mutable state of `atom.py`: the raw element dict and
every table derived from it by `reset_elements`. -/
structure AtomState where
  chemInfoDict : List (List Char × ElemInfo)
  chemMonoMass : List (List Char × ℚ)
  chemIsotopeDist : List (List Char × List ℚ)
  chemMonoIdx : List (List Char × ℤ)
  massC : ℚ
  massH : ℚ
  massN : ℚ
  massO : ℚ
  massH2O : ℚ
  massNH3 : ℚ
deriving DecidableEq

/-- `reset_elements()`: rebuild the three derived tables from
`CHEM_INFO_DICT` (updating existing entries in place), then recompute the
composite masses.  `none` models a Python exception: a failing per-element
build, or a `KeyError` when C/H/N/O is absent from the rebuilt mass table. -/
def reset_elements (maxLen : ℕ) (st : AtomState) : Option AtomState := do
  let tabs ← st.chemInfoDict.foldlM
    (fun (acc : (List (List Char × ℚ)) × (List (List Char × List ℚ)) × (List (List Char × ℤ)))
        (p : List Char × ElemInfo) => do
      let e ← buildElem maxLen p.2
      pure (dUpd acc.1 p.1 e.monoMass, dUpd acc.2.1 p.1 e.dist, dUpd acc.2.2 p.1 e.monoIdx))
    (st.chemMonoMass, st.chemIsotopeDist, st.chemMonoIdx)
  let mm := tabs.1
  let c ← assocLookup mm ['C']
  let h ← assocLookup mm ['H']
  let n ← assocLookup mm ['N']
  let o ← assocLookup mm ['O']
  some { st with
    chemMonoMass := mm
    chemIsotopeDist := tabs.2.1
    chemMonoIdx := tabs.2.2
    massC := c, massH := h, massN := n, massO := o
    massH2O := h * 2 + o
    massNH3 := h * 3 + n }

/-- The dict-mutation half of `update_atom_infos`: each new record is written
into `CHEM_INFO_DICT` before `reset_elements` runs. -/
def updateDict (st : AtomState) (new : List (List Char × ElemInfo)) : AtomState :=
  { st with chemInfoDict := new.foldl (fun d p => dUpd d p.1 p.2) st.chemInfoDict }

/-- `update_atom_infos(new_atom_info)`: write the new records, then rebuild. -/
def update_atom_infos (maxLen : ℕ) (st : AtomState) (new : List (List Char × ElemInfo)) :
    Option AtomState :=
  reset_elements maxLen (updateDict st new)

/-- `load_elem_yaml`: replace `CHEM_INFO_DICT` by the freshly parsed table,
reset the derived dicts to empty, and rebuild.  (Reading and parsing the yaml
file itself is I/O outside the model; the parsed table is the argument.) -/
def load_elem_table (maxLen : ℕ) (table : List (List Char × ElemInfo)) : Option AtomState :=
  reset_elements maxLen ⟨table, [], [], [], 0, 0, 0, 0, 0, 0⟩

/-! ### `parse_formula` / `calc_mass_from_formula` -/

/-- Python `int(s)`: an optional sign followed by at least one digit.
(Whitespace padding and underscore separators, which `int` also accepts, are
not modelled; they only widen the accepted set.) -/
def parseIntPy (l : List Char) : Option ℤ :=
  let core : List Char → Option ℤ := fun ds =>
    if ds = [] ∨ ¬ ds.all Char.isDigit then none
    else some (ds.foldl (fun a c => a * 10 + ((c.toNat : ℤ) - 48)) 0)
  match l with
  | '-' :: t => (core t).map Neg.neg
  | '+' :: t => core t
  | t => core t

/-- `formula.strip(")")`: remove `)` from both ends. -/
def stripParens (l : List Char) : List Char :=
  ((l.dropWhile (· = ')')).reverse.dropWhile (· = ')')).reverse

/-- `parse_formula(formula)` from `atom.py`: split the `)`-stripped string on
`)`, split each piece on `(` into exactly `(element, count)`, and read the
count as an int.  `none` models the `ValueError` Python raises when a piece
does not split into exactly two parts or the count is not an int. -/
def parse_formula (l : List Char) : Option (List (List Char × ℤ)) :=
  if l = [] then some []
  else
    ((stripParens l).splitOn ')').mapM fun item =>
      match item.splitOn '(' with
      | [e, n] => (parseIntPy n).map fun z => (e, z)
      | _ => none

/-- `calc_mass_from_formula(formula)`: `sum(CHEM_MONO_MASS[elem] * n ...)`.
`none` models the `KeyError` on a symbol absent from `CHEM_MONO_MASS`. -/
def calc_mass_from_formula (monoMass : List (List Char × ℚ)) (l : List Char) : Option ℚ :=
  (parse_formula l).bind fun pairs =>
    (pairs.mapM fun p => (assocLookup monoMass p.1).map (· * (p.2 : ℚ))).map List.sum

/-! ### `ChemicalCompositonFormula`

`_parse_formula` and `_parse_rdkit_formula` run `re.findall` over the input.
`re.findall` is modelled exactly: at each position try to match the pattern;
on success emit the groups and continue after the consumed text, on failure
advance one character.  The patterns are hand-compiled scanners; the regexes
involved backtrack only trivially (all character classes are disjoint at each
decision point), so greedy runs are exact. -/

/-- Integer value of a digit run (the value the regex group receives). -/
def digitsVal (ds : List Char) : ℤ :=
  ds.foldl (fun a ch => a * 10 + ((ch.toNat : ℤ) - 48)) 0

/-- Apply the optional `-` sign of the count group. -/
def condNeg (neg : Bool) (v : ℤ) : ℤ :=
  if neg then -v else v

/-- The digit-run-and-closing-paren part of the count group `([-]?\d+)\)`:
`neg` records whether a `-` was consumed, `u` is the input after it. -/
def tryCountCore (neg : Bool) (u : List Char) : Option (ℤ × List Char) :=
  match (u.span Char.isDigit).2 with
  | [] => none
  | c3 :: r3 =>
    if c3 = ')' then
      if (u.span Char.isDigit).1 = [] then none
      else some (condNeg neg (digitsVal (u.span Char.isDigit).1), r3)
    else none

/-- Attempt to match the count group `(?:\(([-]?\d+)\))?` of the canonical
pattern at the head of the input: a parenthesised optionally-negative
integer.  Returns the count and the remaining input. -/
def tryCount (l : List Char) : Option (ℤ × List Char) :=
  match l with
  | [] => none
  | c :: r =>
    if c = '(' then
      match r with
      | [] => tryCountCore false r
      | c2 :: t => if c2 = '-' then tryCountCore true t else tryCountCore false r
    else none

/-- One match attempt of the canonical-grammar pattern (see `tryCount`). -/
def matchAt (l : List Char) : Option ((List Char × ℤ) × List Char) :=
  match (l.span Char.isDigit).2 with
  | [] => none
  | c :: r2 =>
    if c.isUpper then
      match tryCount (r2.span Char.isLower).2 with
      | some (n, r4) =>
        some (((l.span Char.isDigit).1 ++ c :: (r2.span Char.isLower).1, n), r4)
      | none =>
        some (((l.span Char.isDigit).1 ++ c :: (r2.span Char.isLower).1, 1),
          (r2.span Char.isLower).2)
    else none

/-- `re.findall` over the canonical pattern, fuel-indexed
(each step consumes at least one character, so fuel `l.length` is exact). -/
def findMatchesF : ℕ → List Char → List (List Char × ℤ)
  | 0, _ => []
  | fuel + 1, l =>
    match matchAt l with
    | some (m, rest) => m :: findMatchesF fuel rest
    | none =>
      match l with
      | [] => []
      | _ :: t => findMatchesF fuel t

/-- All matches of the canonical formula pattern in the input. -/
def findMatches (l : List Char) : List (List Char × ℤ) :=
  findMatchesF l.length l

/-- `element_counts[element] += count` on a `defaultdict(int)`: add into the
existing binding (keeping its position) or append a new one. -/
def dAdd (d : List (List Char × ℤ)) (k : List Char) (n : ℤ) : List (List Char × ℤ) :=
  match d with
  | [] => [(k, n)]
  | (k0, v) :: t => if k0 = k then (k0, v + n) :: t else (k0, v) :: dAdd t k n

/-- Fold the match list into the `element_counts` defaultdict. -/
def buildCounts (ms : List (List Char × ℤ)) : List (List Char × ℤ) :=
  ms.foldl (fun d p => dAdd d p.1 p.2) []

/-- `ChemicalCompositonFormula._parse_formula`. -/
def parseClassFormula (l : List Char) : List (List Char × ℤ) :=
  buildCounts (findMatches l)

/-- One match attempt of the rdkit pattern
`(\[(\d+)([A-Z][a-z]*)\]|([A-Z][a-z]*))(\d*)`. -/
def matchAtR (l : List Char) : Option ((List Char × ℤ) × List Char) :=
  match l with
  | [] => none
  | c :: r =>
    if c = '[' then
      if (r.span Char.isDigit).1 = [] then none
      else
        match (r.span Char.isDigit).2 with
        | [] => none
        | c2 :: r2 =>
          if c2.isUpper then
            match (r2.span Char.isLower).2 with
            | [] => none
            | c3 :: r4 =>
              if c3 = ']' then
                some (((r.span Char.isDigit).1 ++ c2 :: (r2.span Char.isLower).1,
                  if (r4.span Char.isDigit).1 = [] then 1
                  else digitsVal (r4.span Char.isDigit).1), (r4.span Char.isDigit).2)
              else none
          else none
    else if c.isUpper then
      some ((c :: (r.span Char.isLower).1,
        if ((r.span Char.isLower).2.span Char.isDigit).1 = [] then 1
        else digitsVal ((r.span Char.isLower).2.span Char.isDigit).1),
        ((r.span Char.isLower).2.span Char.isDigit).2)
    else none

/-- `re.findall` over the rdkit pattern, fuel-indexed. -/
def findMatchesRF : ℕ → List Char → List (List Char × ℤ)
  | 0, _ => []
  | fuel + 1, l =>
    match matchAtR l with
    | some (m, rest) => m :: findMatchesRF fuel rest
    | none =>
      match l with
      | [] => []
      | _ :: t => findMatchesRF fuel t

/-- All matches of the rdkit formula pattern in the input. -/
def findMatchesR (l : List Char) : List (List Char × ℤ) :=
  findMatchesRF l.length l

/-- `ChemicalCompositonFormula._parse_rdkit_formula`. -/
def parseRdkitFormula (l : List Char) : List (List Char × ℤ) :=
  buildCounts (findMatchesR l)

/-! ### `__str__` (canonical serialization) -/

/-- Digits of `n`, most significant first, accumulator style.  Fuel-indexed
(structural recursion keeps the definition kernel-reducible); any fuel above
`n` is enough since `n/10 < n`. -/
def natCharsGo : ℕ → ℕ → List Char → List Char
  | 0, _, acc => acc
  | fuel + 1, n, acc =>
    if n = 0 then acc
    else natCharsGo fuel (n / 10) (Char.ofNat (48 + n % 10) :: acc)

/-- Decimal digits of a natural number (Python `str` of a non-negative int). -/
def natChars (n : ℕ) : List Char :=
  if n = 0 then ['0'] else natCharsGo (n + 1) n []

/-- Python `str` of an int: `-` followed by the digits when negative. -/
def intChars (z : ℤ) : List Char :=
  if z < 0 then '-' :: natChars (-z).toNat else natChars z.toNat

/-- Python string `<`: lexicographic by code point. -/
def lexLt : List Char → List Char → Bool
  | [], [] => false
  | [], _ :: _ => true
  | _ :: _, [] => false
  | a :: s, b :: t => if a.toNat < b.toNat then true
      else if b.toNat < a.toNat then false else lexLt s t

/-- `sorted(self.elements.items())` with distinct keys: sort by key under the
Python string order. -/
def sortByKey (f : List (List Char × ℤ)) : List (List Char × ℤ) :=
  List.insertionSort (fun p q => lexLt q.1 p.1 = false) f

/-- One `f"{element}({count})"` token. -/
def renderPair (p : List Char × ℤ) : List Char :=
  p.1 ++ '(' :: (intChars p.2 ++ [')'])

/-- `ChemicalCompositonFormula.__str__`: sorted items, zero counts skipped,
each rendered as `element(count)`. -/
def serializeFormula (f : List (List Char × ℤ)) : List Char :=
  ((sortByKey f).filter (fun p => p.2 ≠ 0)).foldr (fun p acc => renderPair p ++ acc) []

/-! ### `__add__` / `__sub__` -/

/-- `self.elements[element]` on a `defaultdict(int)`: reading a missing key
*inserts* it with value 0.  Returns the value and the possibly-extended dict. -/
def dGet (d : List (List Char × ℤ)) (k : List Char) : ℤ × List (List Char × ℤ) :=
  match assocLookup d k with
  | some v => (v, d)
  | none => (0, d ++ [(k, 0)])

/-- `set(self.elements.keys()) | set(other.elements.keys())`.  Python set
iteration order is unspecified; the model fixes left-operand keys first.
Every fact proved below about the result is order-independent. -/
def unionKeys (a b : List (List Char × ℤ)) : List (List Char) :=
  a.map Prod.fst ++ (b.map Prod.fst).filter (fun k => (assocLookup a k).isNone)

/-- The loop body shared by `__add__` and `__sub__`: look both operands up
(mutating them when the key is missing) and bind the key in the result. -/
def opStep (op : ℤ → ℤ → ℤ)
    (st : List (List Char × ℤ) × List (List Char × ℤ) × List (List Char × ℤ))
    (k : List Char) :
    List (List Char × ℤ) × List (List Char × ℤ) × List (List Char × ℤ) :=
  let ga := dGet st.2.1 k
  let gb := dGet st.2.2 k
  (dUpd st.1 k (op ga.1 gb.1), ga.2, gb.2)

/-- `__add__`: returns `(result.elements, self.elements, other.elements)`
after the loop — the operand dicts are part of the result because the
`defaultdict` lookups can extend them. -/
def addFormula (a b : List (List Char × ℤ)) :
    List (List Char × ℤ) × List (List Char × ℤ) × List (List Char × ℤ) :=
  (unionKeys a b).foldl (opStep (· + ·)) ([], a, b)

/-- `__sub__`, analogously. -/
def subFormula (a b : List (List Char × ℤ)) :
    List (List Char × ℤ) × List (List Char × ℤ) × List (List Char × ℤ) :=
  (unionKeys a b).foldl (opStep (· - ·)) ([], a, b)

/-- The symbol-to-count mapping a formula dict denotes: the stored count, or
0 for an absent symbol (`defaultdict(int)` semantics). -/
def countGet (d : List (List Char × ℤ)) (k : List Char) : ℤ :=
  (assocLookup d k).getD 0

/-! ### The truncation algorithm as the specification words it

Transcribed from the spec text, independently of `truncate_isotope` above:
maintain `trunc_start = monoIndex - 1`, `trunc_end = monoIndex + 1`; while
both bounds remain inside the array and the window width is below
`MAX_ISOTOPE_LEN`, increment `trunc_end` if `envelope[trunc_end] >=
envelope[trunc_start]`, else decrement `trunc_start`; if the loop ends short
of `MAX_ISOTOPE_LEN`, re-anchor (`trunc_end = MAX_ISOTOPE_LEN` when the lower
bound hit `-1`, `trunc_start = len(envelope) - MAX_ISOTOPE_LEN - 1` when the
upper bound hit `len(envelope)`); return `envelope[trunc_start+1 :
trunc_end]` with new mono index `monoIndex - trunc_start - 1`. -/

/-- The spec's windowing loop. -/
def truncSpecLoop (maxLen : ℕ) (env : List ℚ) : ℕ → ℤ → ℤ → ℤ × ℤ
  | 0, s, e => (s, e)
  | fuel + 1, s, e =>
    if 0 ≤ s ∧ e < (env.length : ℤ) ∧ e - s - 1 < (maxLen : ℤ) then
      if env.getD e.toNat 0 ≥ env.getD s.toNat 0 then
        truncSpecLoop maxLen env fuel s (e + 1)
      else
        truncSpecLoop maxLen env fuel (s - 1) e
    else (s, e)

/-- The spec's windowing algorithm: loop, re-anchor, and report
`(new mono index, window start, window end)`. -/
def truncateSpec (maxLen : ℕ) (env : List ℚ) (mono : ℤ) : ℤ × ℤ × ℤ :=
  let p := truncSpecLoop maxLen env (maxLen + 1) (mono - 1) (mono + 1)
  let q : ℤ × ℤ :=
    if p.2 - p.1 - 1 < (maxLen : ℤ) then
      if p.1 = -1 then (p.1, (maxLen : ℤ))
      else if p.2 = (env.length : ℤ) then ((env.length : ℤ) - maxLen - 1, p.2)
      else (p.1, p.2)
    else (p.1, p.2)
  (mono - q.1 - 1, q.1 + 1, q.2)

/-- A well-formed dict key for the canonical grammar: an optional digit run
(isotope prefix), an uppercase letter, then lowercase letters — exactly the
strings the pattern `(\d+)?([A-Z][a-z]*)` produces as `f"{isotope}{element}"`
keys. -/
def wfSymB (s : List Char) : Bool :=
  match (s.span Char.isDigit).2 with
  | c :: ls => c.isUpper && ls.all Char.isLower
  | [] => false

/-- Total count carried by a symbol across a token list (used to state what
the accumulating `defaultdict` fold computes). -/
def sumCounts : List (List Char × ℤ) → List Char → ℤ
  | [], _ => 0
  | p :: t, k => (if p.1 = k then p.2 else 0) + sumCounts t k

example : parseClassFormula ['H', '(', '1', ')', 'H', '(', '2', ')'] = [(['H'], 3)] := by
  with_unfolding_all decide

example : parseClassFormula ['1', '3', 'C', '(', '-', '2', ')'] = [(['1', '3', 'C'], -2)] := by
  with_unfolding_all decide

example : parseClassFormula ['H', '!', 'O'] = [(['H'], 1), (['O'], 1)] := by
  with_unfolding_all decide

example : parseRdkitFormula ['[', '1', '3', 'C', ']', '2', 'O', 'H', '2'] =
    [(['1', '3', 'C'], 2), (['O'], 1), (['H'], 2)] := by with_unfolding_all decide

example : serializeFormula [(['H'], 2), (['1', '3', 'C'], -1)] =
    ['1', '3', 'C', '(', '-', '1', ')', 'H', '(', '2', ')'] := by with_unfolding_all decide

example : addFormula [(['H'], 1)] [(['C'], 1)] =
    ([(['H'], 1), (['C'], 1)], [(['H'], 1), (['C'], 0)], [(['C'], 1), (['H'], 0)]) := by
  with_unfolding_all decide

example : truncate_isotope 5 [1, 2, 3, 4, 10, 5, 4, 3, 2, 1] 4 = (1, 3, 8) := by
  with_unfolding_all decide

example : buildElem 10 ⟨[1], [1]⟩ =
    some ⟨1, [1, 0, 0, 0, 0, 0, 0, 0, 0, 0], 0⟩ := by with_unfolding_all decide

example : parse_formula ['H', '(', '2', ')', 'O', '(', '1', ')'] =
    some [(['H'], 2), (['O'], 1)] := by with_unfolding_all decide

example : calc_mass_from_formula [(['H'], 1), (['O'], 16)]
    ['H', '(', '2', ')', 'O', '(', '1', ')'] = some 18 := by with_unfolding_all decide

/-! ## Lemmas about the truncation loop -/

/-- Invariants and exit conditions of the `truncate_isotope` loop.  Each
iteration widens the window by exactly one, so `fuel + width ≥ maxLen`
guarantees the loop stops because of its own condition, not the fuel. -/
theorem truncLoop_post (maxLen : ℕ) (isos : List ℚ) :
    ∀ (fuel : ℕ) (s e : ℤ), -1 ≤ s → e ≤ (isos.length : ℤ) → 1 ≤ e - s - 1 →
    (maxLen : ℤ) ≤ (fuel : ℤ) + (e - s - 1) →
    -1 ≤ (truncLoop maxLen isos fuel s e).1 ∧
    (truncLoop maxLen isos fuel s e).1 ≤ s ∧
    e ≤ (truncLoop maxLen isos fuel s e).2 ∧
    (truncLoop maxLen isos fuel s e).2 ≤ (isos.length : ℤ) ∧
    e - s - 1 ≤ (truncLoop maxLen isos fuel s e).2 - (truncLoop maxLen isos fuel s e).1 - 1 ∧
    (truncLoop maxLen isos fuel s e).2 - (truncLoop maxLen isos fuel s e).1 - 1
      ≤ max (e - s - 1) (maxLen : ℤ) ∧
    ¬(0 ≤ (truncLoop maxLen isos fuel s e).1 ∧
      (truncLoop maxLen isos fuel s e).2 < (isos.length : ℤ) ∧
      (truncLoop maxLen isos fuel s e).2 - (truncLoop maxLen isos fuel s e).1 - 1 < (maxLen : ℤ)) := by
  intro fuel
  induction fuel with
  | zero =>
    intro s e hs he hw hfuel
    simp only [truncLoop]
    refine ⟨hs, le_refl s, le_refl e, he, le_refl _, le_max_left _ _, ?_⟩
    intro h
    omega
  | succ n ih =>
    intro s e hs he hw hfuel
    simp only [truncLoop]
    by_cases hc : 0 ≤ s ∧ e < (isos.length : ℤ) ∧ e - s - 1 < (maxLen : ℤ)
    · simp only [if_pos hc]
      by_cases hcmp : isos.getD s.toNat 0 ≤ isos.getD e.toNat 0
      · simp only [if_pos hcmp]
        have h2 := ih s (e + 1) hs (by omega) (by omega) (by omega)
        refine ⟨h2.1, h2.2.1, by omega, h2.2.2.2.1, by omega, ?_, h2.2.2.2.2.2.2⟩
        have := h2.2.2.2.2.2.1
        omega
      · simp only [if_neg hcmp]
        have h2 := ih (s - 1) e (by omega) he (by omega) (by omega)
        refine ⟨h2.1, by omega, h2.2.2.1, h2.2.2.2.1, by omega, ?_, h2.2.2.2.2.2.2⟩
        have := h2.2.2.2.2.2.1
        omega
    · simp only [if_neg hc]
      exact ⟨hs, le_refl s, le_refl e, he, le_refl _, le_max_left _ _, hc⟩

/-- The truncation window: for an envelope strictly longer than `maxLen ≥ 1`
and a mono index inside it, `truncate_isotope` returns a window of exactly
`maxLen` entries lying inside the array and containing the mono index, and
reports the mono's position relative to the window start. -/
theorem truncate_isotope_window (maxLen : ℕ) (isos : List ℚ) (mono : ℤ)
    (hM : 1 ≤ maxLen) (hlen : (maxLen : ℤ) < (isos.length : ℤ))
    (h0 : 0 ≤ mono) (hm : mono < (isos.length : ℤ)) :
    0 ≤ (truncate_isotope maxLen isos mono).2.1 ∧
    (truncate_isotope maxLen isos mono).2.2 = (truncate_isotope maxLen isos mono).2.1 + maxLen ∧
    (truncate_isotope maxLen isos mono).2.2 ≤ (isos.length : ℤ) ∧
    (truncate_isotope maxLen isos mono).2.1 ≤ mono ∧
    mono < (truncate_isotope maxLen isos mono).2.2 ∧
    (truncate_isotope maxLen isos mono).1 = mono - (truncate_isotope maxLen isos mono).2.1 := by
  have hpost := truncLoop_post maxLen isos (maxLen + 1) (mono - 1) (mono + 1)
    (by omega) (by omega) (by omega) (by omega)
  simp only [truncate_isotope]
  set p := truncLoop maxLen isos (maxLen + 1) (mono - 1) (mono + 1) with hp
  obtain ⟨hs1, hs2, he1, he2, hw1, hw2, hexit⟩ := hpost
  have hwmax : p.2 - p.1 - 1 ≤ (maxLen : ℤ) := by
    have : max (mono + 1 - (mono - 1) - 1) (maxLen : ℤ) = (maxLen : ℤ) := by omega
    omega
  by_cases hshort : p.2 - p.1 - 1 < (maxLen : ℤ)
  · -- the loop stopped at a boundary
    have hbound : p.1 = -1 ∨ p.2 = (isos.length : ℤ) := by
      rcases not_and_or.mp hexit with h | h
      · left; omega
      · rcases not_and_or.mp h with h2 | h2
        · right; omega
        · omega
    by_cases hsm : p.1 = -1
    · simp only [if_pos hshort, if_pos hsm]
      constructor
      · simp [hsm]
      refine ⟨by simp [hsm], by omega, by omega, ?_, by simp [hsm]⟩
      -- mono < maxLen: the loop end never passed maxLen here
      have : p.2 - p.1 - 1 < (maxLen : ℤ) := hshort
      omega
    · have hem : p.2 = (isos.length : ℤ) := by tauto
      simp only [if_pos hshort, if_neg hsm]
      simp only [if_pos hem]
      refine ⟨by omega, by omega, by omega, ?_, by omega, by ring⟩
      -- window start is strictly below the loop start, which is ≤ mono - 1
      omega
  · simp only [if_neg hshort]
    have hwid : p.2 - p.1 - 1 = (maxLen : ℤ) := by omega
    exact ⟨by omega, by omega, he2, by omega, by omega, by ring⟩

/-! ## List and scatter lemmas -/

/-- `npSet` preserves the array length. -/
theorem npSet_length {l l2 : List ℚ} {i : ℤ} {v : ℚ} (h : npSet l i v = some l2) :
    l2.length = l.length := by
  unfold npSet at h
  cases hidx : npIndex l.length i with
  | none => rw [hidx] at h; exact absurd h (by simp)
  | some n =>
    rw [hidx] at h
    simp only [Option.some.injEq] at h
    rw [← h, List.length_set]

/-- The fold underlying `scatter` preserves the array length. -/
theorem foldlM_npSet_length :
    ∀ (pv : List (ℤ × ℚ)) (acc l : List ℚ),
    pv.foldlM (fun a p => npSet a p.1 p.2) acc = some l → l.length = acc.length := by
  intro pv
  induction pv with
  | nil =>
    intro acc l h
    have hal : acc = l := Option.some.inj h
    rw [hal]
  | cons p t ih =>
    intro acc l h
    rw [List.foldlM_cons] at h
    cases hset : npSet acc p.1 p.2 with
    | none => rw [hset] at h; exact absurd h (by simp)
    | some a2 =>
      rw [hset] at h
      rw [ih a2 l h, npSet_length hset]

/-- A successful `scatter` produces an array of the requested length. -/
theorem scatter_length {len : ℕ} {pv : List (ℤ × ℚ)} {l : List ℚ}
    (h : scatter len pv = some l) : l.length = len := by
  have := foldlM_npSet_length pv (List.replicate len 0) l h
  simpa using this

/-- `argmaxAux` returns an index below the running bound. -/
theorem argmaxAux_lt :
    ∀ (l : List ℚ) (i best : ℕ) (bv : ℚ), best < i →
    argmaxAux l i best bv < i + l.length := by
  intro l
  induction l with
  | nil => intro i best bv h; simpa [argmaxAux] using h
  | cons x t ih =>
    intro i best bv h
    simp only [argmaxAux]
    by_cases hx : bv < x
    · simp only [if_pos hx]
      have := ih (i + 1) i x (by omega)
      simp only [List.length_cons]
      omega
    · simp only [if_neg hx]
      have := ih (i + 1) best bv (by omega)
      simp only [List.length_cons]
      omega

/-- `np.argmax` of a nonempty list is a valid index. -/
theorem argmaxQ_lt_length {l : List ℚ} (h : l ≠ []) : argmaxQ l < l.length := by
  cases l with
  | nil => exact absurd rfl h
  | cons x t =>
    simp only [argmaxQ, List.length_cons]
    have := argmaxAux_lt t 1 0 x (by omega)
    omega

/-- Reading past `drop`. -/
theorem getD_drop (l : List ℚ) : ∀ (n i : ℕ), (l.drop n).getD i 0 = l.getD (n + i) 0 := by
  induction l with
  | nil => intro n i; simp
  | cons x t ih =>
    intro n i
    cases n with
    | zero => simp
    | succ m =>
      simp only [List.drop_succ_cons, ih m i]
      have : m + 1 + i = (m + i) + 1 := by omega
      rw [this]
      rfl

/-- Reading inside `take`. -/
theorem getD_take (l : List ℚ) : ∀ (n i : ℕ), i < n → (l.take n).getD i 0 = l.getD i 0 := by
  induction l with
  | nil => intro n i _; simp
  | cons x t ih =>
    intro n i h
    cases n with
    | zero => omega
    | succ m =>
      cases i with
      | zero => simp
      | succ j =>
        simp only [List.take_succ_cons]
        have := ih m j (by omega)
        simpa using this

/-- A `pySlice` whose endpoints are sane has the expected length. -/
theorem pySlice_length {l : List ℚ} {s e : ℤ} (hs : 0 ≤ s) (hse : s ≤ e)
    (he : e ≤ (l.length : ℤ)) : (pySlice l s e).length = (e - s).toNat := by
  unfold pySlice sliceIdx
  have h1 : ¬(s < 0) := by omega
  have h2 : ¬(e < 0) := by omega
  simp only [if_neg h1, if_neg h2]
  have hs2 : min s.toNat l.length = s.toNat := by omega
  have he2 : min e.toNat l.length = e.toNat := by omega
  rw [hs2, he2, List.length_take, List.length_drop]
  omega

/-- Reading a `pySlice` at offset `i - s` reads the base array at `i`. -/
theorem pySlice_getD {l : List ℚ} {s e i : ℤ} (hs : 0 ≤ s) (hi1 : s ≤ i) (hi2 : i < e)
    (he : e ≤ (l.length : ℤ)) :
    (pySlice l s e).getD (i - s).toNat 0 = l.getD i.toNat 0 := by
  unfold pySlice sliceIdx
  have h1 : ¬(s < 0) := by omega
  have h2 : ¬(e < 0) := by omega
  simp only [if_neg h1, if_neg h2]
  have hs2 : min s.toNat l.length = s.toNat := by omega
  have he2 : min e.toNat l.length = e.toNat := by omega
  rw [hs2, he2, getD_take _ _ _ (by omega), getD_drop]
  congr 1
  omega

/-! ## The stored distribution length (claim C1) and mono tracking (claim C2) -/

/-- Unfolding of `buildElem` in its truncating branch. -/
theorem buildElem_else (maxLen : ℕ) (rec : ElemInfo)
    (h1 : ¬rec.mass.length = 0) (h2 : ¬rec.abundance.length < rec.mass.length)
    (h3 : ¬spanOf rec ≤ (maxLen : ℤ)) :
    buildElem maxLen rec =
      (denseIsosOf rec (spanOf rec).toNat).bind fun isos =>
      (denseMassesOf rec (spanOf rec).toNat).bind fun masses =>
      some ⟨masses.getD (argmaxQ isos) 0,
        pySlice isos (truncate_isotope maxLen isos (argmaxQ isos)).2.1
          (truncate_isotope maxLen isos (argmaxQ isos)).2.2,
        (truncate_isotope maxLen isos (argmaxQ isos)).1⟩ := by
  unfold buildElem
  rw [if_neg h1, if_neg h2, if_neg h3]

/-- Unfolding of `buildElem` in its padding (non-truncating) branch. -/
theorem buildElem_if (maxLen : ℕ) (rec : ElemInfo)
    (h1 : ¬rec.mass.length = 0) (h2 : ¬rec.abundance.length < rec.mass.length)
    (h3 : spanOf rec ≤ (maxLen : ℤ)) :
    buildElem maxLen rec =
      (denseIsosOf rec maxLen).bind fun isos =>
      (denseMassesOf rec maxLen).bind fun masses =>
      some ⟨masses.getD (argmaxQ isos) 0, isos, (argmaxQ isos : ℤ)⟩ := by
  unfold buildElem
  rw [if_neg h1, if_neg h2, if_pos h3]

/-- **Amended claim C1.**  Every successfully built element stores a
distribution of length exactly `MAX_ISOTOPE_LEN` — zero-padded when the
dense envelope is shorter, truncated when it is longer — never of length
`min(MAX_ISOTOPE_LEN, original_span)`. -/
theorem stored_dist_length (maxLen : ℕ) (rec : ElemInfo) (e : ElemEntry)
    (hM : 1 ≤ maxLen) (h : buildElem maxLen rec = some e) :
    e.dist.length = maxLen := by
  by_cases h1 : rec.mass.length = 0
  · unfold buildElem at h
    rw [if_pos h1] at h
    exact absurd h (by simp)
  by_cases h2 : rec.abundance.length < rec.mass.length
  · unfold buildElem at h
    rw [if_neg h1, if_pos h2] at h
    exact absurd h (by simp)
  by_cases h3 : spanOf rec ≤ (maxLen : ℤ)
  · rw [buildElem_if maxLen rec h1 h2 h3] at h
    cases hI : denseIsosOf rec maxLen with
    | none => rw [hI] at h; exact absurd h (by simp)
    | some isos =>
      rw [hI] at h
      cases hMs : denseMassesOf rec maxLen with
      | none => rw [hMs] at h; exact absurd h (by simp)
      | some ms =>
        rw [hMs] at h
        have he : e = ⟨ms.getD (argmaxQ isos) 0, isos, (argmaxQ isos : ℤ)⟩ :=
          (Option.some.inj h).symm
        rw [he]
        exact scatter_length hI
  · rw [buildElem_else maxLen rec h1 h2 h3] at h
    cases hI : denseIsosOf rec (spanOf rec).toNat with
    | none => rw [hI] at h; exact absurd h (by simp)
    | some isos =>
      rw [hI] at h
      cases hMs : denseMassesOf rec (spanOf rec).toNat with
      | none => rw [hMs] at h; exact absurd h (by simp)
      | some ms =>
        rw [hMs] at h
        have hlen : isos.length = (spanOf rec).toNat := scatter_length hI
        have hlenZ : (maxLen : ℤ) < (isos.length : ℤ) := by
          rw [hlen]; omega
        have hne : isos ≠ [] := by
          intro hnil
          rw [hnil] at hlenZ
          simp at hlenZ
          omega
        have hmono : argmaxQ isos < isos.length := argmaxQ_lt_length hne
        have hw := truncate_isotope_window maxLen isos (argmaxQ isos) hM hlenZ
          (by omega) (by omega)
        have he : e = ⟨ms.getD (argmaxQ isos) 0,
            pySlice isos (truncate_isotope maxLen isos (argmaxQ isos)).2.1
              (truncate_isotope maxLen isos (argmaxQ isos)).2.2,
            (truncate_isotope maxLen isos (argmaxQ isos)).1⟩ :=
          (Option.some.inj h).symm
        rw [he]
        show (pySlice isos _ _).length = maxLen
        rw [pySlice_length hw.1 (by omega) hw.2.2.1]
        omega

/-- Witness for `stored_dist_length`: a concrete single-isotope element. -/
theorem stored_dist_length_witness :
    (ElemEntry.mk 1 [1, 0, 0, 0, 0, 0, 0, 0, 0, 0] 0).dist.length = 10 :=
  stored_dist_length 10 ⟨[1], [1]⟩ ⟨1, [1, 0, 0, 0, 0, 0, 0, 0, 0, 0], 0⟩
    (by omega) (by with_unfolding_all decide)

/-- **Counterexample to claim C1 as stated.**  A single-isotope element has
`original_span = 1`, yet the stored distribution has length
`MAX_ISOTOPE_LEN = 10`, not `min(MAX_ISOTOPE_LEN, original_span) = 1`:
short envelopes are zero-padded to the fixed length, not kept at their
original span. -/
theorem claim_C1_counterexample :
    (buildElem 10 ⟨[1], [1]⟩).map (fun e => (e.dist.length : ℤ)) = some 10 ∧
    originalSpan ⟨[1], [1]⟩ = 1 ∧
    min (10 : ℤ) 1 ≠ 10 := by
  refine ⟨by with_unfolding_all decide, by with_unfolding_all decide, by decide⟩

/-- **Claim C2.**  For an element whose dense envelope is strictly longer
than `MAX_ISOTOPE_LEN`, the stored mono index is a valid index into the
stored (truncated) distribution, the stored distribution holds the original
monoisotopic abundance at that index, and the stored monoisotopic mass is
the dense-mass-array entry of the untruncated envelope's argmax — the same
physical isotope before and after truncation. -/
theorem claim_C2 (maxLen : ℕ) (rec : ElemInfo) (e : ElemEntry) (isos ms : List ℚ)
    (hM : 1 ≤ maxLen) (hspan : (maxLen : ℤ) < spanOf rec)
    (hI : denseIsosOf rec (spanOf rec).toNat = some isos)
    (hMs : denseMassesOf rec (spanOf rec).toNat = some ms)
    (hmass : rec.mass.length ≠ 0)
    (hab : ¬rec.abundance.length < rec.mass.length)
    (h : buildElem maxLen rec = some e) :
    0 ≤ e.monoIdx ∧ e.monoIdx < (e.dist.length : ℤ) ∧
    e.dist.getD e.monoIdx.toNat 0 = isos.getD (argmaxQ isos) 0 ∧
    e.monoMass = ms.getD (argmaxQ isos) 0 := by
  rw [buildElem_else maxLen rec hmass hab (by omega), hI, hMs] at h
  have hlen : isos.length = (spanOf rec).toNat := scatter_length hI
  have hlenZ : (maxLen : ℤ) < (isos.length : ℤ) := by rw [hlen]; omega
  have hne : isos ≠ [] := by
    intro hnil
    rw [hnil] at hlenZ
    simp at hlenZ
    omega
  have hmono : argmaxQ isos < isos.length := argmaxQ_lt_length hne
  have hw := truncate_isotope_window maxLen isos (argmaxQ isos) hM hlenZ
    (by omega) (by omega)
  have he : e = ⟨ms.getD (argmaxQ isos) 0,
      pySlice isos (truncate_isotope maxLen isos (argmaxQ isos)).2.1
        (truncate_isotope maxLen isos (argmaxQ isos)).2.2,
      (truncate_isotope maxLen isos (argmaxQ isos)).1⟩ :=
    (Option.some.inj h).symm
  obtain ⟨hws, hwe, hwlen, hwm1, hwm2, hwmono⟩ := hw
  have hslicelen : (pySlice isos (truncate_isotope maxLen isos (argmaxQ isos)).2.1
      (truncate_isotope maxLen isos (argmaxQ isos)).2.2).length = maxLen := by
    rw [pySlice_length hws (by omega) hwlen]
    omega
  refine ⟨?_, ?_, ?_, ?_⟩
  · rw [he]
    show (0 : ℤ) ≤ (truncate_isotope maxLen isos (argmaxQ isos)).1
    omega
  · rw [he]
    show (truncate_isotope maxLen isos (argmaxQ isos)).1 <
      ((pySlice isos _ _).length : ℤ)
    rw [hslicelen]
    omega
  · rw [he]
    show (pySlice isos _ _).getD (truncate_isotope maxLen isos (argmaxQ isos)).1.toNat 0
      = isos.getD (argmaxQ isos) 0
    have harg : (truncate_isotope maxLen isos (argmaxQ isos)).1.toNat
        = ((argmaxQ isos : ℤ) - (truncate_isotope maxLen isos (argmaxQ isos)).2.1).toNat := by
      omega
    rw [harg, pySlice_getD hws hwm1 hwm2 hwlen]
    simp
  · rw [he]

/-- Witness for `claim_C2`: the spec's synthetic ten-isotope element with
peak abundance at offset 4 and a window of 5. -/
theorem claim_C2_witness :
    0 ≤ (ElemEntry.mk 4 [4, 10, 5, 4, 3] 1).monoIdx ∧
    (ElemEntry.mk 4 [4, 10, 5, 4, 3] 1).monoIdx
      < ((ElemEntry.mk 4 [4, 10, 5, 4, 3] 1).dist.length : ℤ) ∧
    (ElemEntry.mk 4 [4, 10, 5, 4, 3] 1).dist.getD
        (ElemEntry.mk 4 [4, 10, 5, 4, 3] 1).monoIdx.toNat 0
      = ([1, 2, 3, 4, 10, 5, 4, 3, 2, 1] : List ℚ).getD
          (argmaxQ [1, 2, 3, 4, 10, 5, 4, 3, 2, 1]) 0 ∧
    (ElemEntry.mk 4 [4, 10, 5, 4, 3] 1).monoMass
      = ([0, 1, 2, 3, 4, 5, 6, 7, 8, 9] : List ℚ).getD
          (argmaxQ [1, 2, 3, 4, 10, 5, 4, 3, 2, 1]) 0 :=
  claim_C2 5 ⟨[1, 2, 3, 4, 10, 5, 4, 3, 2, 1], [0, 1, 2, 3, 4, 5, 6, 7, 8, 9]⟩
    ⟨4, [4, 10, 5, 4, 3], 1⟩ [1, 2, 3, 4, 10, 5, 4, 3, 2, 1] [0, 1, 2, 3, 4, 5, 6, 7, 8, 9]
    (by omega) (by with_unfolding_all decide) (by with_unfolding_all decide)
    (by with_unfolding_all decide) (by with_unfolding_all decide)
    (by with_unfolding_all decide) (by with_unfolding_all decide)

/-! ## The code's truncation equals the spec's windowing steps (claim C3) -/

/-- The spec-transcribed loop and the code's loop agree step for step. -/
theorem truncSpecLoop_eq_truncLoop (maxLen : ℕ) (env : List ℚ) :
    ∀ (fuel : ℕ) (s e : ℤ), truncSpecLoop maxLen env fuel s e = truncLoop maxLen env fuel s e := by
  intro fuel
  induction fuel with
  | zero => intro s e; rfl
  | succ n ih =>
    intro s e
    simp only [truncSpecLoop, truncLoop, ge_iff_le]
    by_cases hc : 0 ≤ s ∧ e < (env.length : ℤ) ∧ e - s - 1 < (maxLen : ℤ)
    · simp only [if_pos hc]
      by_cases hcmp : env.getD s.toNat 0 ≤ env.getD e.toNat 0
      · simp only [if_pos hcmp, ih]
      · simp only [if_neg hcmp, ih]
    · simp only [if_neg hc]

/-- **Claim C3.**  For every envelope longer than `MAX_ISOTOPE_LEN` and mono
index inside it, `truncate_isotope` computes exactly the spec's windowing
steps (`truncateSpec`, transcribed verbatim from the specification text):
the same loop with the `>=` tie-break that extends the upper side, the same
re-anchoring after a boundary hit, the same returned slice bounds and
re-based mono index. -/
theorem claim_C3 (maxLen : ℕ) (env : List ℚ) (mono : ℤ)
    (_h1 : (maxLen : ℤ) < (env.length : ℤ)) (_h2 : 0 ≤ mono)
    (_h3 : mono < (env.length : ℤ)) :
    truncate_isotope maxLen env mono = truncateSpec maxLen env mono := by
  unfold truncate_isotope truncateSpec
  simp only [truncSpecLoop_eq_truncLoop]

/-- Witness for `claim_C3`: the synthetic ten-isotope envelope. -/
theorem claim_C3_witness :
    truncate_isotope 5 [1, 2, 3, 4, 10, 5, 4, 3, 2, 1] 4
      = truncateSpec 5 [1, 2, 3, 4, 10, 5, 4, 3, 2, 1] 4 :=
  claim_C3 5 [1, 2, 3, 4, 10, 5, 4, 3, 2, 1] 4 (by with_unfolding_all decide)
    (by omega) (by with_unfolding_all decide)

/-! ## Formula mass (claim C4) -/

/-- When every symbol of the parsed formula is present, the elementwise
`mapM` succeeds with the per-pair products. -/
theorem mapM_lookup_some (tab : List (List Char × ℚ)) :
    ∀ (pairs : List (List Char × ℤ)),
    (∀ p ∈ pairs, (assocLookup tab p.1).isSome) →
    (pairs.mapM fun p => (assocLookup tab p.1).map (· * (p.2 : ℚ)))
      = some (pairs.map fun p => (assocLookup tab p.1).getD 0 * (p.2 : ℚ)) := by
  intro pairs
  induction pairs with
  | nil => intro _; rfl
  | cons a t ih =>
    intro hall
    have ha : (assocLookup tab a.1).isSome := hall a (by simp)
    cases hla : assocLookup tab a.1 with
    | none => rw [hla] at ha; exact absurd ha (by simp)
    | some v =>
      rw [List.mapM_cons, hla, ih (fun p hp => hall p (by simp [hp]))]
      simp [hla]

/-- When some symbol of the parsed formula is absent, the `mapM` fails. -/
theorem mapM_lookup_none (tab : List (List Char × ℚ)) :
    ∀ (pairs : List (List Char × ℤ)),
    (∃ p ∈ pairs, assocLookup tab p.1 = none) →
    (pairs.mapM fun p => (assocLookup tab p.1).map (· * (p.2 : ℚ))) = none := by
  intro pairs
  induction pairs with
  | nil => intro h; obtain ⟨p, hp, _⟩ := h; exact absurd hp (by simp)
  | cons a t ih =>
    intro h
    rw [List.mapM_cons]
    obtain ⟨p, hp, hnone⟩ := h
    rcases List.mem_cons.mp hp with rfl | hmem
    · rw [hnone]; rfl
    · cases hla : assocLookup tab a.1 with
      | none => rfl
      | some v =>
        rw [ih ⟨p, hmem, hnone⟩]
        simp [hla]

/-- `calc_mass_from_formula` on a parsable formula with all symbols present:
the sum of count-weighted monoisotopic masses. -/
theorem calc_mass_all_present (tab : List (List Char × ℚ)) (f : List Char)
    (pairs : List (List Char × ℤ)) (hp : parse_formula f = some pairs)
    (hall : ∀ p ∈ pairs, (assocLookup tab p.1).isSome) :
    calc_mass_from_formula tab f
      = some (pairs.map fun p => (assocLookup tab p.1).getD 0 * (p.2 : ℚ)).sum := by
  unfold calc_mass_from_formula
  rw [hp]
  show ((pairs.mapM fun p => (assocLookup tab p.1).map (· * (p.2 : ℚ))).map List.sum) = _
  rw [mapM_lookup_some tab pairs hall]
  rfl

/-- `calc_mass_from_formula` fails (Python `KeyError`) whenever a parsed
symbol is absent from the mass table. -/
theorem calc_mass_missing (tab : List (List Char × ℚ)) (f : List Char)
    (pairs : List (List Char × ℤ)) (hp : parse_formula f = some pairs)
    (hmiss : ∃ p ∈ pairs, assocLookup tab p.1 = none) :
    calc_mass_from_formula tab f = none := by
  unfold calc_mass_from_formula
  rw [hp]
  show ((pairs.mapM fun p => (assocLookup tab p.1).map (· * (p.2 : ℚ))).map List.sum) = none
  rw [mapM_lookup_none tab pairs hmiss]
  rfl

/-- The water formula `H(2)O(1)` evaluates to `mono(H) * 2 + mono(O)`. -/
theorem calc_mass_water (tab : List (List Char × ℚ)) (h o : ℚ)
    (hH : assocLookup tab ['H'] = some h) (hO : assocLookup tab ['O'] = some o) :
    calc_mass_from_formula tab ['H', '(', '2', ')', 'O', '(', '1', ')']
      = some (h * 2 + o) := by
  have hp : parse_formula ['H', '(', '2', ')', 'O', '(', '1', ')']
      = some [(['H'], 2), (['O'], 1)] := by with_unfolding_all decide
  rw [calc_mass_all_present tab _ _ hp (by
    intro p hp2
    rcases List.mem_cons.mp hp2 with rfl | hmem
    · simp [hH]
    · rcases List.mem_cons.mp hmem with rfl | hmem2
      · simp [hO]
      · exact absurd hmem2 (by simp))]
  simp [hH, hO]

/-- A successful `reset_elements` leaves `H` and `O` in the mono-mass table
and derives `MASS_H2O` from exactly those two entries. -/
theorem reset_elements_water (maxLen : ℕ) (st st2 : AtomState)
    (hr : reset_elements maxLen st = some st2) :
    ∃ h o : ℚ, assocLookup st2.chemMonoMass ['H'] = some h ∧
      assocLookup st2.chemMonoMass ['O'] = some o ∧ st2.massH2O = h * 2 + o := by
  unfold reset_elements at hr
  cases htabs : st.chemInfoDict.foldlM
      (fun (acc : (List (List Char × ℚ)) × (List (List Char × List ℚ)) × (List (List Char × ℤ)))
          (p : List Char × ElemInfo) => do
        let e ← buildElem maxLen p.2
        pure (dUpd acc.1 p.1 e.monoMass, dUpd acc.2.1 p.1 e.dist, dUpd acc.2.2 p.1 e.monoIdx))
      (st.chemMonoMass, st.chemIsotopeDist, st.chemMonoIdx) with
  | none => rw [htabs] at hr; exact absurd hr (by simp)
  | some tabs =>
    rw [htabs] at hr
    simp only [Option.bind_eq_bind, Option.some_bind] at hr
    cases hc : assocLookup tabs.1 ['C'] with
    | none => rw [hc] at hr; exact absurd hr (by simp)
    | some c =>
      rw [hc] at hr
      simp only [Option.some_bind] at hr
      cases hh : assocLookup tabs.1 ['H'] with
      | none => rw [hh] at hr; exact absurd hr (by simp)
      | some h =>
        rw [hh] at hr
        simp only [Option.some_bind] at hr
        cases hn : assocLookup tabs.1 ['N'] with
        | none => rw [hn] at hr; exact absurd hr (by simp)
        | some n =>
          rw [hn] at hr
          simp only [Option.some_bind] at hr
          cases ho : assocLookup tabs.1 ['O'] with
          | none => rw [ho] at hr; exact absurd hr (by simp)
          | some o =>
            rw [ho] at hr
            simp only [Option.some_bind] at hr
            have hst2 : st2 = { st with
                chemMonoMass := tabs.1
                chemIsotopeDist := tabs.2.1
                chemMonoIdx := tabs.2.2
                massC := c, massH := h, massN := n, massO := o
                massH2O := h * 2 + o
                massNH3 := h * 3 + n } := (Option.some.inj hr).symm
            exact ⟨h, o, by rw [hst2]; exact hh, by rw [hst2]; exact ho, by rw [hst2]⟩

/-- **Claim C4.**  `calc_mass_from_formula` returns the sum of
`count * monoMass(symbol)` over the parsed pairs whenever every symbol is in
the active mass table; it fails (the spec's `UnknownElement`, Python's
`KeyError`) whenever some symbol is absent; `H(2)O(1)` evaluates to
`2 * monoMass(H) + monoMass(O)` exactly (hence within any tolerance); and on
any state produced by `reset_elements` that value is exactly the internally
derived water mass `MASS_H2O`. -/
theorem claim_C4 :
    (∀ (tab : List (List Char × ℚ)) (f : List Char) (pairs : List (List Char × ℤ)),
      parse_formula f = some pairs →
      (∀ p ∈ pairs, (assocLookup tab p.1).isSome) →
      calc_mass_from_formula tab f
        = some (pairs.map fun p => (assocLookup tab p.1).getD 0 * (p.2 : ℚ)).sum) ∧
    (∀ (tab : List (List Char × ℚ)) (f : List Char) (pairs : List (List Char × ℤ)),
      parse_formula f = some pairs →
      (∃ p ∈ pairs, assocLookup tab p.1 = none) →
      calc_mass_from_formula tab f = none) ∧
    (∀ (tab : List (List Char × ℚ)) (h o : ℚ),
      assocLookup tab ['H'] = some h → assocLookup tab ['O'] = some o →
      calc_mass_from_formula tab ['H', '(', '2', ')', 'O', '(', '1', ')']
        = some (h * 2 + o)) ∧
    (∀ (maxLen : ℕ) (st st2 : AtomState), reset_elements maxLen st = some st2 →
      calc_mass_from_formula st2.chemMonoMass ['H', '(', '2', ')', 'O', '(', '1', ')']
        = some st2.massH2O) := by
  refine ⟨calc_mass_all_present, calc_mass_missing, calc_mass_water, ?_⟩
  intro maxLen st st2 hr
  obtain ⟨h, o, hH, hO, hW⟩ := reset_elements_water maxLen st st2 hr
  rw [calc_mass_water st2.chemMonoMass h o hH hO, hW]

/-- Witness for `claim_C4`: a concrete two-element table; the water formula
evaluates to `1 * 2 + 16 = 18`, and a formula with a foreign symbol fails. -/
theorem claim_C4_witness :
    calc_mass_from_formula [(['H'], 1), (['O'], 16)]
      ['H', '(', '2', ')', 'O', '(', '1', ')'] = some 18 ∧
    calc_mass_from_formula [(['H'], 1), (['O'], 16)] ['X', '(', '1', ')'] = none := by
  constructor
  · have h2 := claim_C4.2.2.1 [(['H'], 1), (['O'], 16)] 1 16
      (by with_unfolding_all decide) (by with_unfolding_all decide)
    rw [h2]
    norm_num
  · exact claim_C4.2.1 [(['H'], 1), (['O'], 16)] ['X', '(', '1', ')'] [(['X'], 1)]
      (by with_unfolding_all decide)
      ⟨(['X'], 1), by simp, by with_unfolding_all decide⟩

/-! ## No validation on load/update (claim C5) -/

/-- `npRound` stays between the floor and the floor plus one. -/
theorem npRound_bounds (q : ℚ) : ⌊q⌋ ≤ npRound q ∧ npRound q ≤ ⌊q⌋ + 1 := by
  unfold npRound
  split_ifs <;> omega

/-- Banker's rounding is monotone. -/
theorem npRound_mono {a b : ℚ} (hab : a ≤ b) : npRound a ≤ npRound b := by
  have hf : ⌊a⌋ ≤ ⌊b⌋ := Int.floor_le_floor hab
  rcases lt_or_eq_of_le hf with hlt | heq
  · have h1 := npRound_bounds a
    have h2 := npRound_bounds b
    omega
  · unfold npRound
    rw [← heq]
    have hr : a - (⌊a⌋ : ℚ) ≤ b - (⌊a⌋ : ℚ) := by linarith
    split_ifs <;> first | omega | linarith

/-- Members of a `≤`-sorted integer list are at most its last entry. -/
theorem sorted_le_getLastD :
    ∀ (l : List ℤ), List.Sorted (· ≤ ·) l → ∀ (d : ℤ), ∀ x ∈ l, x ≤ l.getLastD d := by
  intro l
  induction l with
  | nil => intro _ d x hx; exact absurd hx (by simp)
  | cons a t ih =>
    intro hs d x hx
    rw [List.getLastD_cons]
    have hpair := List.sorted_cons.mp hs
    rcases List.mem_cons.mp hx with rfl | hmem
    · cases t with
      | nil => simp
      | cons b t2 =>
        have hb : x ≤ b := hpair.1 b (by simp)
        have := ih hpair.2 x b (by simp)
        omega
    · exact ih hpair.2 a x hmem

/-- Members of a `≤`-sorted integer list are at least its head. -/
theorem sorted_headD_le (l : List ℤ) (hs : List.Sorted (· ≤ ·) l) :
    ∀ x ∈ l, l.headD 0 ≤ x := by
  cases l with
  | nil => intro x hx; exact absurd hx (by simp)
  | cons a t =>
    intro x hx
    rcases List.mem_cons.mp hx with rfl | hmem
    · simp
    · exact (List.sorted_cons.mp hs).1 x hmem

/-- The sorted mass/abundance pairs are sorted by mass. -/
theorem sortedMassAbund_sorted (rec : ElemInfo) :
    List.Sorted (fun p q : ℚ × ℚ => p.1 ≤ q.1) (sortedMassAbund rec) := by
  haveI : IsTotal (ℚ × ℚ) (fun p q : ℚ × ℚ => p.1 ≤ q.1) := ⟨fun a b => le_total a.1 b.1⟩
  haveI : IsTrans (ℚ × ℚ) (fun p q : ℚ × ℚ => p.1 ≤ q.1) :=
    ⟨fun _ _ _ hab hbc => le_trans hab hbc⟩
  exact List.sorted_insertionSort _ _

/-- The normalised positions are sorted. -/
theorem posNOf_sorted (rec : ElemInfo) : List.Sorted (· ≤ ·) (posNOf rec) := by
  unfold posNOf
  have h1 : List.Sorted (· ≤ ·) ((sortedMassAbund rec).map (fun p => npRound p.1)) :=
    List.Pairwise.map _ (fun a b hab => npRound_mono hab) (sortedMassAbund_sorted rec)
  exact List.Pairwise.map _ (fun a b hab => by omega) h1

/-- Every normalised position lies in `[0, spanOf rec)`. -/
theorem posNOf_bounds (rec : ElemInfo) (hne : sortedMassAbund rec ≠ []) :
    ∀ x ∈ posNOf rec, 0 ≤ x ∧ x < spanOf rec := by
  intro x hx
  have hs := posNOf_sorted rec
  have hxle := sorted_le_getLastD (posNOf rec) hs 0 x hx
  have hxge := sorted_headD_le (posNOf rec) hs x hx
  have hhead : (posNOf rec).headD 0 = 0 := by
    unfold posNOf
    cases hsm : sortedMassAbund rec with
    | nil => exact absurd hsm hne
    | cons p t => simp
  rw [hhead] at hxge
  unfold spanOf
  rw [hhead] at *
  constructor
  · exact hxge
  · omega

/-- The fold underlying `scatter` succeeds when every index is in range. -/
theorem foldlM_npSet_isSome :
    ∀ (pv : List (ℤ × ℚ)) (acc : List ℚ),
    (∀ p ∈ pv, 0 ≤ p.1 ∧ p.1 < (acc.length : ℤ)) →
    (pv.foldlM (fun a p => npSet a p.1 p.2) acc).isSome := by
  intro pv
  induction pv with
  | nil => intro acc _; rfl
  | cons p t ih =>
    intro acc hall
    rw [List.foldlM_cons]
    have hp := hall p (by simp)
    have hset : npSet acc p.1 p.2 = some (acc.set p.1.toNat p.2) := by
      unfold npSet npIndex
      rw [if_pos hp]
    rw [hset]
    have hlen : (acc.set p.1.toNat p.2).length = acc.length := List.length_set acc _ _
    exact ih (acc.set p.1.toNat p.2) (fun q hq => by rw [hlen]; exact hall q (by simp [hq]))

/-- `scatter` succeeds when every index is in range. -/
theorem scatter_isSome {len : ℕ} {pv : List (ℤ × ℚ)}
    (h : ∀ p ∈ pv, 0 ≤ p.1 ∧ p.1 < (len : ℤ)) : (scatter len pv).isSome := by
  unfold scatter
  have := foldlM_npSet_isSome pv (List.replicate len 0)
  simp only [List.length_replicate] at this
  exact this h

/-- With a nonempty mass list no longer than the abundance list, the sorted
pair list is nonempty. -/
theorem sortedMassAbund_ne_nil (rec : ElemInfo) (hm : rec.mass.length ≠ 0)
    (hab : ¬rec.abundance.length < rec.mass.length) : sortedMassAbund rec ≠ [] := by
  intro hnil
  have hlen : (sortedMassAbund rec).length
      = (rec.mass.zip (rec.abundance.take rec.mass.length)).length :=
    (List.perm_insertionSort _ _).length_eq
  rw [hnil] at hlen
  rw [List.length_zip, List.length_take] at hlen
  simp at hlen
  omega

/-- The per-element rebuild accepts every record whose mass list is nonempty
and no longer than its abundance list: there is no validation to fail. -/
theorem buildElem_isSome (maxLen : ℕ) (rec : ElemInfo)
    (hm : rec.mass.length ≠ 0) (hab : ¬rec.abundance.length < rec.mass.length) :
    (buildElem maxLen rec).isSome = true := by
  have hne := sortedMassAbund_ne_nil rec hm hab
  have hbounds := posNOf_bounds rec hne
  have hnel : posNOf rec ≠ [] := by
    unfold posNOf
    intro h
    exact hne (List.map_eq_nil_iff.mp (List.map_eq_nil_iff.mp h))
  have hhead : (posNOf rec).headD 0 = 0 := by
    unfold posNOf
    cases hsm : sortedMassAbund rec with
    | nil => exact absurd hsm hne
    | cons p t => simp
  have hspan1 : 1 ≤ spanOf rec := by
    unfold spanOf
    rw [hhead]
    have hmem : (posNOf rec).headD 0 ∈ posNOf rec := by
      cases hpn : posNOf rec with
      | nil => exact absurd hpn hnel
      | cons y t => simp
    rw [hhead] at hmem
    have := sorted_le_getLastD (posNOf rec) (posNOf_sorted rec) 0 0 hmem
    omega
  by_cases h3 : spanOf rec ≤ (maxLen : ℤ)
  · rw [buildElem_if maxLen rec hm hab h3]
    have hI : (denseIsosOf rec maxLen).isSome := by
      apply scatter_isSome
      intro p hp
      have hmem := (List.of_mem_zip hp).1
      have := hbounds p.1 hmem
      omega
    have hMs : (denseMassesOf rec maxLen).isSome := by
      apply scatter_isSome
      intro p hp
      have hmem := (List.of_mem_zip hp).1
      have := hbounds p.1 hmem
      omega
    obtain ⟨isos, hI2⟩ := Option.isSome_iff_exists.mp hI
    obtain ⟨ms, hMs2⟩ := Option.isSome_iff_exists.mp hMs
    rw [hI2, hMs2]
    rfl
  · rw [buildElem_else maxLen rec hm hab h3]
    have hcast : ((spanOf rec).toNat : ℤ) = spanOf rec := by omega
    have hI : (denseIsosOf rec (spanOf rec).toNat).isSome := by
      apply scatter_isSome
      intro p hp
      have hmem := (List.of_mem_zip hp).1
      have := hbounds p.1 hmem
      omega
    have hMs : (denseMassesOf rec (spanOf rec).toNat).isSome := by
      apply scatter_isSome
      intro p hp
      have hmem := (List.of_mem_zip hp).1
      have := hbounds p.1 hmem
      omega
    obtain ⟨isos, hI2⟩ := Option.isSome_iff_exists.mp hI
    obtain ⟨ms, hMs2⟩ := Option.isSome_iff_exists.mp hMs
    rw [hI2, hMs2]
    rfl

/-- Updating a key makes it present with the written value. -/
theorem assocLookup_dUpd {α : Type} (d : List (List Char × α)) (k : List Char) (v : α) :
    assocLookup (dUpd d k v) k = some v := by
  induction d with
  | nil => simp [dUpd, assocLookup]
  | cons p t ih =>
    unfold dUpd
    by_cases hk : p.1 = k
    · rw [if_pos hk]
      unfold assocLookup
      rw [if_pos hk]
    · rw [if_neg hk]
      unfold assocLookup
      rw [if_neg hk]
      exact ih

/-- **Amended claim C5.**  `load`/`update` perform no isotope-table
validation at all.  In particular a record whose abundances are all
non-positive (with matching, nonempty list lengths) is accepted by the
per-element rebuild rather than rejected with `InvalidIsotopeTable`; and
`update_atom_infos` writes the incoming record into the element dict before
the rebuild runs, so the previous model is not preserved. -/
theorem claim_C5_amended :
    (∀ (maxLen : ℕ) (rec : ElemInfo),
      rec.mass.length ≠ 0 → rec.abundance.length = rec.mass.length →
      (∀ x ∈ rec.abundance, x ≤ 0) →
      (buildElem maxLen rec).isSome = true) ∧
    (∀ (st : AtomState) (sym : List Char) (rec : ElemInfo),
      assocLookup (updateDict st [(sym, rec)]).chemInfoDict sym = some rec) := by
  constructor
  · intro maxLen rec hm hlen _
    exact buildElem_isSome maxLen rec hm (by omega)
  · intro st sym rec
    show assocLookup (dUpd st.chemInfoDict sym rec) sym = some rec
    exact assocLookup_dUpd st.chemInfoDict sym rec

/-- Witness for `claim_C5_amended`: a two-isotope record with all-zero
abundances is accepted, and an update writes it into the dict. -/
theorem claim_C5_amended_witness :
    (buildElem 10 ⟨[0, 0], [14, 15]⟩).isSome = true ∧
    assocLookup (updateDict ⟨[], [], [], [], 0, 0, 0, 0, 0, 0⟩
      [(['N'], ⟨[0, 0], [14, 15]⟩)]).chemInfoDict ['N'] = some ⟨[0, 0], [14, 15]⟩ :=
  ⟨claim_C5_amended.1 10 ⟨[0, 0], [14, 15]⟩ (by decide) (by decide) (by
      intro x hx
      rcases List.mem_cons.mp hx with rfl | hx2
      · exact le_refl 0
      · rcases List.mem_cons.mp hx2 with rfl | hx3
        · exact le_refl 0
        · exact absurd hx3 (by simp)),
    claim_C5_amended.2 ⟨[], [], [], [], 0, 0, 0, 0, 0, 0⟩ ['N'] ⟨[0, 0], [14, 15]⟩⟩

/-- **Counterexample to claim C5 as stated.**  Loading a four-element table
and then updating `N` with an all-zero-abundance record (the spec's
"all abundances non-positive" case, with equal-length lists) does *not*
fail with `InvalidIsotopeTable`: the update succeeds, and the element dict
it leaves behind differs from the previously loaded one. -/
theorem claim_C5_counterexample :
    ((load_elem_table 10
        [(['C'], ⟨[1], [12]⟩), (['H'], ⟨[1], [1]⟩),
         (['N'], ⟨[1], [14]⟩), (['O'], ⟨[1], [16]⟩)]).bind fun st =>
      (update_atom_infos 10 st [(['N'], ⟨[0, 0], [14, 15]⟩)]).map fun st2 =>
        decide (st2.chemInfoDict = st.chemInfoDict)) = some false := by
  with_unfolding_all decide

/-! ## The parsers silently skip unmatched text (claim C6) -/

/-- `span` on a head that fails the predicate. -/
theorem span_cons_false {p : Char → Bool} {c : Char} {l : List Char} (h : p c = false) :
    (c :: l).span p = ([], c :: l) := by
  rw [List.span_eq_take_drop]
  simp [List.takeWhile_cons, List.dropWhile_cons, h]

/-- `span` on a head that satisfies the predicate. -/
theorem span_cons_true {p : Char → Bool} {c : Char} {l : List Char} (h : p c = true) :
    (c :: l).span p = (c :: (l.span p).1, (l.span p).2) := by
  rw [List.span_eq_take_drop, List.span_eq_take_drop]
  simp [List.takeWhile_cons, List.dropWhile_cons, h]

/-- `span` splits the list it was applied to. -/
theorem span_append (p : Char → Bool) (l : List Char) : (l.span p).1 ++ (l.span p).2 = l := by
  rw [List.span_eq_take_drop]
  exact List.takeWhile_append_dropWhile p l

/-- A character that is neither a digit nor uppercase cannot start a match
of the canonical pattern. -/
theorem matchAt_cons_none {c : Char} {rest : List Char}
    (hd : c.isDigit = false) (hu : c.isUpper = false) :
    matchAt (c :: rest) = none := by
  unfold matchAt
  rw [span_cons_false hd]
  simp [hu]

/-- One unfolding step of `findMatchesF`. -/
theorem findMatchesF_succ (fuel : ℕ) (l : List Char) :
    findMatchesF (fuel + 1) l =
      match matchAt l with
      | some (m, rest) => m :: findMatchesF fuel rest
      | none =>
        match l with
        | [] => []
        | _ :: t => findMatchesF fuel t := rfl

/-- One unfolding step of `findMatchesRF`. -/
theorem findMatchesRF_succ (fuel : ℕ) (l : List Char) :
    findMatchesRF (fuel + 1) l =
      match matchAtR l with
      | some (m, rest) => m :: findMatchesRF fuel rest
      | none =>
        match l with
        | [] => []
        | _ :: t => findMatchesRF fuel t := rfl

/-- `re.findall` (canonical pattern) skips an unmatchable head character. -/
theorem findMatches_cons_skip {c : Char} {rest : List Char}
    (hd : c.isDigit = false) (hu : c.isUpper = false) :
    findMatches (c :: rest) = findMatches rest := by
  unfold findMatches
  show findMatchesF (rest.length + 1) (c :: rest) = findMatchesF rest.length rest
  rw [findMatchesF_succ, matchAt_cons_none hd hu]

/-- A character that is neither `[` nor uppercase cannot start a match
of the rdkit pattern. -/
theorem matchAtR_cons_none {c : Char} {rest : List Char}
    (hb : c ≠ '[') (hu : c.isUpper = false) :
    matchAtR (c :: rest) = none := by
  simp only [matchAtR]
  simp [hb, hu]

/-- `re.findall` (rdkit pattern) skips an unmatchable head character. -/
theorem findMatchesR_cons_skip {c : Char} {rest : List Char}
    (hb : c ≠ '[') (hu : c.isUpper = false) :
    findMatchesR (c :: rest) = findMatchesR rest := by
  unfold findMatchesR
  show findMatchesRF (rest.length + 1) (c :: rest) = findMatchesRF rest.length rest
  rw [findMatchesRF_succ, matchAtR_cons_none hb hu]

/-- **Amended claim C6.**  Neither grammar rejects unmatched text: both
class parsers are built on `re.findall`, which silently skips any character
that cannot start a match (for the canonical grammar, any ASCII character
that is neither a digit nor uppercase; for the rdkit grammar, any ASCII
character that is neither `[` nor uppercase) and returns the mapping built
from the matched tokens only — a partial (possibly empty) mapping rather
than a `MalformedFormula` failure. -/
theorem claim_C6_amended :
    (∀ (c : Char) (rest : List Char), c.toNat < 128 →
      c.isDigit = false → c.isUpper = false →
      parseClassFormula (c :: rest) = parseClassFormula rest) ∧
    (∀ (c : Char) (rest : List Char), c.toNat < 128 →
      c ≠ '[' → c.isUpper = false →
      parseRdkitFormula (c :: rest) = parseRdkitFormula rest) := by
  constructor
  · intro c rest _ hd hu
    unfold parseClassFormula
    rw [findMatches_cons_skip hd hu]
  · intro c rest _ hb hu
    unfold parseRdkitFormula
    rw [findMatchesR_cons_skip hb hu]

/-- Witness for `claim_C6_amended`: skipping a concrete `!`. -/
theorem claim_C6_amended_witness :
    parseClassFormula ['!', 'O'] = parseClassFormula ['O'] ∧
    parseRdkitFormula ['!', 'O'] = parseRdkitFormula ['O'] :=
  ⟨claim_C6_amended.1 '!' ['O'] (by decide) (by decide) (by decide),
   claim_C6_amended.2 '!' ['O'] (by decide) (by decide) (by decide)⟩

/-- **Counterexample to claim C6 as stated.**  `H!O` contains the token `!`,
which neither grammar matches, yet both parsers succeed: the canonical
parser returns the partial mapping `{H: 1, O: 1}` (the `!` is silently
dropped), an all-lowercase input yields an empty mapping, and the rdkit
parser behaves the same — no `MalformedFormula` failure occurs anywhere. -/
theorem claim_C6_counterexample :
    parseClassFormula ['H', '!', 'O'] = [(['H'], 1), (['O'], 1)] ∧
    parseClassFormula ['h'] = [] ∧
    parseRdkitFormula ['H', '!', 'O'] = [(['H'], 1), (['O'], 1)] := by
  refine ⟨by decide, by decide, by decide⟩

/-! ## Duplicate tokens accumulate (claim C10) -/

/-- `dAdd` adds to the addressed key... -/
theorem countGet_dAdd_same (d : List (List Char × ℤ)) (k : List Char) (n : ℤ) :
    countGet (dAdd d k n) k = countGet d k + n := by
  induction d with
  | nil => simp [dAdd, countGet, assocLookup]
  | cons p t ih =>
    unfold dAdd
    by_cases hk : p.1 = k
    · rw [if_pos hk]
      unfold countGet assocLookup
      rw [if_pos hk, if_pos hk]
      simp
    · rw [if_neg hk]
      unfold countGet assocLookup
      rw [if_neg hk, if_neg hk]
      exact ih

/-- ... and leaves every other key's count unchanged. -/
theorem countGet_dAdd_other (d : List (List Char × ℤ)) (k : List Char) (n : ℤ)
    (j : List Char) (hj : k ≠ j) :
    countGet (dAdd d k n) j = countGet d j := by
  induction d with
  | nil => simp [dAdd, countGet, assocLookup, hj]
  | cons p t ih =>
    unfold dAdd
    by_cases hk : p.1 = k
    · rw [if_pos hk]
      unfold countGet assocLookup
      rw [hk]
      rw [if_neg hj, if_neg hj]
    · rw [if_neg hk]
      unfold countGet assocLookup
      by_cases hpj : p.1 = j
      · rw [if_pos hpj, if_pos hpj]
      · rw [if_neg hpj, if_neg hpj]
        exact ih

/-- `dAdd` introduces at most the addressed key. -/
theorem mem_keys_dAdd (d : List (List Char × ℤ)) (k : List Char) (n : ℤ) (j : List Char) :
    j ∈ (dAdd d k n).map Prod.fst ↔ (j ∈ d.map Prod.fst ∨ j = k) := by
  induction d with
  | nil => simp [dAdd]
  | cons p t ih =>
    unfold dAdd
    by_cases hk : p.1 = k
    · rw [if_pos hk]
      simp only [List.map_cons, List.mem_cons]
      constructor
      · intro h
        rcases h with h | h
        · left; left; exact h
        · left; right; exact h
      · intro h
        rcases h with (h | h) | h
        · left; exact h
        · right; exact h
        · left; exact h.trans hk.symm
    · rw [if_neg hk]
      simp only [List.map_cons, List.mem_cons, ih]
      tauto

/-- `dAdd` keeps the key list duplicate-free. -/
theorem nodup_dAdd (d : List (List Char × ℤ)) (k : List Char) (n : ℤ)
    (h : (d.map Prod.fst).Nodup) : ((dAdd d k n).map Prod.fst).Nodup := by
  induction d with
  | nil => simp [dAdd]
  | cons p t ih =>
    unfold dAdd
    rw [List.map_cons, List.nodup_cons] at h
    by_cases hk : p.1 = k
    · rw [if_pos hk]
      rw [List.map_cons, List.nodup_cons]
      exact h
    · rw [if_neg hk]
      rw [List.map_cons, List.nodup_cons]
      constructor
      · intro hmem
        rcases (mem_keys_dAdd t k n p.1).mp hmem with hmem2 | hmem2
        · exact h.1 hmem2
        · exact hk hmem2
      · exact ih h.2

/-- The defaultdict fold computes, for each key, the total count of the
matched tokens carrying that key. -/
theorem countGet_buildCounts_go :
    ∀ (ms : List (List Char × ℤ)) (d : List (List Char × ℤ)) (k : List Char),
    countGet (ms.foldl (fun d p => dAdd d p.1 p.2) d) k = countGet d k + sumCounts ms k := by
  intro ms
  induction ms with
  | nil => intro d k; simp [sumCounts]
  | cons p t ih =>
    intro d k
    rw [List.foldl_cons]
    rw [ih (dAdd d p.1 p.2) k]
    rw [show sumCounts (p :: t) k = (if p.1 = k then p.2 else 0) + sumCounts t k from rfl]
    by_cases hk : p.1 = k
    · rw [if_pos hk, hk, countGet_dAdd_same]
      omega
    · rw [if_neg hk, countGet_dAdd_other d p.1 p.2 k hk]
      omega

/-- The defaultdict fold never creates duplicate keys. -/
theorem nodup_buildCounts_go :
    ∀ (ms : List (List Char × ℤ)) (d : List (List Char × ℤ)),
    (d.map Prod.fst).Nodup →
    ((ms.foldl (fun d p => dAdd d p.1 p.2) d).map Prod.fst).Nodup := by
  intro ms
  induction ms with
  | nil => intro d h; exact h
  | cons p t ih =>
    intro d h
    rw [List.foldl_cons]
    exact ih (dAdd d p.1 p.2) (nodup_dAdd d p.1 p.2 h)

/-- **Claim C10.**  The canonical-grammar parser accumulates repeated
symbols: the returned dict has duplicate-free keys (a single entry per
symbol) and maps every symbol to the *sum* of the counts of all matched
tokens carrying it; concretely, `H(1)H(2)` parses to the single entry
`{H: 3}`, not to a rejection and not to the last occurrence `{H: 2}`. -/
theorem claim_C10 :
    (∀ (l : List Char) (k : List Char),
      countGet (parseClassFormula l) k = sumCounts (findMatches l) k ∧
      ((parseClassFormula l).map Prod.fst).Nodup) ∧
    parseClassFormula ['H', '(', '1', ')', 'H', '(', '2', ')'] = [(['H'], 3)] := by
  constructor
  · intro l k
    constructor
    · unfold parseClassFormula buildCounts
      rw [countGet_buildCounts_go]
      simp [countGet, assocLookup]
    · exact nodup_buildCounts_go (findMatches l) [] (by simp)
  · decide

/-! ## Formula algebra (claims C8 and C9) -/

/-- One step of `assocLookup`. -/
theorem assocLookup_cons {α : Type} (p : List Char × α) (t : List (List Char × α))
    (k : List Char) :
    assocLookup (p :: t) k = if p.1 = k then some p.2 else assocLookup t k := rfl

/-- Lookup distributes over append, trying the left dict first. -/
theorem assocLookup_append {α : Type} (d1 d2 : List (List Char × α)) (k : List Char) :
    assocLookup (d1 ++ d2) k =
      match assocLookup d1 k with
      | some v => some v
      | none => assocLookup d2 k := by
  induction d1 with
  | nil => rfl
  | cons p t ih =>
    rw [List.cons_append, assocLookup_cons, assocLookup_cons]
    by_cases hk : p.1 = k
    · rw [if_pos hk, if_pos hk]
    · rw [if_neg hk, if_neg hk]
      exact ih

/-- A key is absent from the lookup iff it is absent from the key list. -/
theorem assocLookup_none_iff {α : Type} (d : List (List Char × α)) (k : List Char) :
    assocLookup d k = none ↔ k ∉ d.map Prod.fst := by
  induction d with
  | nil => simp [assocLookup]
  | cons p t ih =>
    rw [assocLookup_cons]
    by_cases hk : p.1 = k
    · rw [if_pos hk]
      simp only [List.map_cons, List.mem_cons]
      constructor
      · intro h; cases h
      · intro h
        exact absurd (Or.inl hk.symm) h
    · rw [if_neg hk]
      rw [ih]
      simp only [List.map_cons, List.mem_cons]
      constructor
      · intro h hmem
        rcases hmem with h2 | h2
        · exact hk h2.symm
        · exact h h2
      · intro h hmem
        exact h (Or.inr hmem)

/-- An absent symbol counts as zero. -/
theorem countGet_not_mem {d : List (List Char × ℤ)} {k : List Char}
    (h : k ∉ d.map Prod.fst) : countGet d k = 0 := by
  unfold countGet
  rw [(assocLookup_none_iff d k).mpr h]
  rfl

/-- Updating one key leaves all other lookups unchanged. -/
theorem assocLookup_dUpd_other {α : Type} (d : List (List Char × α)) (k : List Char) (v : α)
    (j : List Char) (hj : k ≠ j) : assocLookup (dUpd d k v) j = assocLookup d j := by
  induction d with
  | nil => simp [dUpd, assocLookup, hj]
  | cons p t ih =>
    unfold dUpd
    by_cases hk : p.1 = k
    · rw [if_pos hk]
      unfold assocLookup
      have : ¬ p.1 = j := by rw [hk]; exact hj
      rw [if_neg this, if_neg this]
    · rw [if_neg hk]
      unfold assocLookup
      by_cases hpj : p.1 = j
      · rw [if_pos hpj, if_pos hpj]
      · rw [if_neg hpj, if_neg hpj]
        exact ih

/-- The keys after `dUpd` are the old keys plus the written key. -/
theorem dUpd_keys {α : Type} (d : List (List Char × α)) (k : List Char) (v : α)
    (j : List Char) : j ∈ (dUpd d k v).map Prod.fst ↔ (j ∈ d.map Prod.fst ∨ j = k) := by
  induction d with
  | nil => simp [dUpd]
  | cons p t ih =>
    unfold dUpd
    by_cases hk : p.1 = k
    · rw [if_pos hk]
      simp only [List.map_cons, List.mem_cons]
      constructor
      · intro h
        rcases h with h | h
        · left; left; exact h
        · left; right; exact h
      · intro h
        rcases h with (h | h) | h
        · left; exact h
        · right; exact h
        · left; exact h.trans hk.symm
    · rw [if_neg hk]
      simp only [List.map_cons, List.mem_cons, ih]
      tauto

/-- The value read by a `defaultdict` access is the mapping's value. -/
theorem dGet_fst (d : List (List Char × ℤ)) (k : List Char) :
    (dGet d k).1 = countGet d k := by
  unfold dGet countGet
  cases h : assocLookup d k <;> simp

/-- A `defaultdict` access never changes the mapping the dict denotes. -/
theorem dGet_preserve (d : List (List Char × ℤ)) (k : List Char) (j : List Char) :
    countGet (dGet d k).2 j = countGet d j := by
  unfold dGet
  cases h : assocLookup d k with
  | some v => rfl
  | none =>
    unfold countGet
    rw [assocLookup_append]
    cases hj : assocLookup d j with
    | some w => rfl
    | none =>
      by_cases hkj : k = j
      · rw [← hkj] at hj ⊢
        simp [assocLookup]
      · simp [assocLookup, hkj]

/-- A `defaultdict` access adds (at most) the accessed key. -/
theorem dGet_keys (d : List (List Char × ℤ)) (k : List Char) (j : List Char) :
    j ∈ ((dGet d k).2).map Prod.fst ↔ (j ∈ d.map Prod.fst ∨ j = k) := by
  unfold dGet
  cases h : assocLookup d k with
  | some v =>
    show j ∈ d.map Prod.fst ↔ _
    constructor
    · intro h2; left; exact h2
    · intro h2
      rcases h2 with h2 | h2
      · exact h2
      · rw [h2]
        by_contra hmem
        rw [(assocLookup_none_iff d k).mpr hmem] at h
        cases h
  | none =>
    show j ∈ (d ++ [(k, 0)]).map Prod.fst ↔ _
    simp

/-- Membership in the iterated key set of `__add__`/`__sub__`. -/
theorem mem_unionKeys (a b : List (List Char × ℤ)) (j : List Char) :
    j ∈ unionKeys a b ↔ (j ∈ a.map Prod.fst ∨ j ∈ b.map Prod.fst) := by
  unfold unionKeys
  rw [List.mem_append]
  constructor
  · intro h
    rcases h with h | h
    · left; exact h
    · right; exact (List.mem_filter.mp h).1
  · intro h
    rcases h with h | h
    · left; exact h
    · by_cases hmem : j ∈ a.map Prod.fst
      · left; exact hmem
      · right
        refine List.mem_filter.mpr ⟨h, ?_⟩
        have hnone : assocLookup a j = none := (assocLookup_none_iff a j).mpr hmem
        simp [hnone]

/-- Full characterisation of the `__add__`/`__sub__` loop: operand mappings
are preserved, the result maps every iterated key to `op` of the operands'
counts, and each of the three dicts ends with exactly the expected keys. -/
theorem fold_opStep (op : ℤ → ℤ → ℤ) :
    ∀ (ks : List (List Char)) (res a b : List (List Char × ℤ)),
    (∀ j, countGet (ks.foldl (opStep op) (res, a, b)).2.1 j = countGet a j) ∧
    (∀ j, countGet (ks.foldl (opStep op) (res, a, b)).2.2 j = countGet b j) ∧
    (∀ k, k ∈ ks →
      countGet (ks.foldl (opStep op) (res, a, b)).1 k = op (countGet a k) (countGet b k)) ∧
    (∀ k, k ∉ ks →
      countGet (ks.foldl (opStep op) (res, a, b)).1 k = countGet res k) ∧
    (∀ j, j ∈ ((ks.foldl (opStep op) (res, a, b)).1).map Prod.fst ↔
      (j ∈ res.map Prod.fst ∨ j ∈ ks)) ∧
    (∀ j, j ∈ ((ks.foldl (opStep op) (res, a, b)).2.1).map Prod.fst ↔
      (j ∈ a.map Prod.fst ∨ j ∈ ks)) ∧
    (∀ j, j ∈ ((ks.foldl (opStep op) (res, a, b)).2.2).map Prod.fst ↔
      (j ∈ b.map Prod.fst ∨ j ∈ ks)) := by
  intro ks
  induction ks with
  | nil =>
    intro res a b
    refine ⟨fun j => rfl, fun j => rfl, fun k hk => absurd hk (by simp),
      fun k _ => rfl, fun j => by simp, fun j => by simp, fun j => by simp⟩
  | cons k0 ks ih =>
    intro res a b
    rw [List.foldl_cons]
    have hstep : opStep op (res, a, b) k0 =
        (dUpd res k0 (op (dGet a k0).1 (dGet b k0).1), (dGet a k0).2, (dGet b k0).2) := rfl
    rw [hstep]
    obtain ⟨ih1, ih2, ih3, ih4, ih5, ih6, ih7⟩ :=
      ih (dUpd res k0 (op (dGet a k0).1 (dGet b k0).1)) (dGet a k0).2 (dGet b k0).2
    refine ⟨?_, ?_, ?_, ?_, ?_, ?_, ?_⟩
    · intro j
      rw [ih1 j, dGet_preserve]
    · intro j
      rw [ih2 j, dGet_preserve]
    · intro k hk
      by_cases hks : k ∈ ks
      · rw [ih3 k hks, dGet_preserve, dGet_preserve]
      · have hk0 : k = k0 := by
          rcases List.mem_cons.mp hk with h | h
          · exact h
          · exact absurd h hks
        rw [ih4 k hks, hk0]
        unfold countGet
        rw [assocLookup_dUpd]
        rw [dGet_fst, dGet_fst]
        rfl
    · intro k hk
      have hk0 : ¬ k = k0 := fun h => hk (by rw [h]; simp)
      have hks : k ∉ ks := fun h => hk (by simp [h])
      rw [ih4 k hks]
      unfold countGet
      rw [assocLookup_dUpd_other res k0 _ k (fun h => hk0 h.symm)]
    · intro j
      rw [ih5 j, dUpd_keys]
      simp only [List.mem_cons]
      tauto
    · intro j
      rw [ih6 j, dGet_keys]
      simp only [List.mem_cons]
      tauto
    · intro j
      rw [ih7 j, dGet_keys]
      simp only [List.mem_cons]
      tauto

/-- The mapping computed by `__add__`: pointwise sum (absent counts as 0). -/
theorem addFormula_countGet (a b : List (List Char × ℤ)) (k : List Char) :
    countGet (addFormula a b).1 k = countGet a k + countGet b k := by
  unfold addFormula
  obtain ⟨h1, h2, h3, h4, h5, h6, h7⟩ := fold_opStep (· + ·) (unionKeys a b) [] a b
  by_cases hk : k ∈ unionKeys a b
  · exact h3 k hk
  · rw [h4 k hk]
    have hmem := (mem_unionKeys a b k).not.mp hk
    push_neg at hmem
    rw [countGet_not_mem hmem.1, countGet_not_mem hmem.2]
    rfl

/-- `__add__` preserves the second operand's mapping. -/
theorem addFormula_preserves_b (a b : List (List Char × ℤ)) (k : List Char) :
    countGet (addFormula a b).2.2 k = countGet b k :=
  (fold_opStep (· + ·) (unionKeys a b) [] a b).2.1 k

/-- The key set of the result of `__add__` is the union of the operands'. -/
theorem addFormula_result_keys (a b : List (List Char × ℤ)) (j : List Char) :
    j ∈ ((addFormula a b).1).map Prod.fst ↔
      (j ∈ a.map Prod.fst ∨ j ∈ b.map Prod.fst) := by
  unfold addFormula
  obtain ⟨h1, h2, h3, h4, h5, h6, h7⟩ := fold_opStep (· + ·) (unionKeys a b) [] a b
  rw [h5 j, mem_unionKeys]
  simp

/-- The mapping computed by `__sub__`: pointwise difference. -/
theorem subFormula_countGet (a b : List (List Char × ℤ)) (k : List Char) :
    countGet (subFormula a b).1 k = countGet a k - countGet b k := by
  unfold subFormula
  obtain ⟨h1, h2, h3, h4, h5, h6, h7⟩ := fold_opStep (· - ·) (unionKeys a b) [] a b
  by_cases hk : k ∈ unionKeys a b
  · exact h3 k hk
  · rw [h4 k hk]
    have hmem := (mem_unionKeys a b k).not.mp hk
    push_neg at hmem
    rw [countGet_not_mem hmem.1, countGet_not_mem hmem.2]
    rfl

/-- **Claim C8.**  For formulas with non-negative counts, subtracting `b`
from `add(a, b)` (with `b` as left by the addition, which may have gained
zero-count entries) gives back exactly the mapping of `a`: every symbol's
count, absent symbols counting as 0, equals its count in `a`. -/
theorem claim_C8 (a b : List (List Char × ℤ))
    (_ha : ∀ p ∈ a, 0 ≤ p.2) (_hb : ∀ p ∈ b, 0 ≤ p.2) (k : List Char) :
    countGet (subFormula (addFormula a b).1 (addFormula a b).2.2).1 k = countGet a k := by
  rw [subFormula_countGet, addFormula_countGet, addFormula_preserves_b]
  omega

/-- Witness for `claim_C8`. -/
theorem claim_C8_witness :
    countGet (subFormula (addFormula [(['H'], 2)] [(['C'], 1)]).1
      (addFormula [(['H'], 2)] [(['C'], 1)]).2.2).1 ['H'] = countGet [(['H'], 2)] ['H'] :=
  claim_C8 [(['H'], 2)] [(['C'], 1)]
    (by intro p hp; simp only [List.mem_singleton] at hp; rw [hp]; decide)
    (by intro p hp; simp only [List.mem_singleton] at hp; rw [hp]; decide)
    ['H']

/-- **Amended claim C9.**  `__add__` and `__sub__` return a fresh result
dict, and they do preserve both operands' symbol-to-count *mappings*
(absent symbols counting as 0) — but they do not leave the operands' entry
sets untouched: the `defaultdict` lookups insert a zero-count entry into
each operand for every symbol present only in the other, so after the call
each operand's key set is the union of both operands' key sets. -/
theorem claim_C9_amended (a b : List (List Char × ℤ)) :
    (∀ j, countGet (addFormula a b).2.1 j = countGet a j) ∧
    (∀ j, countGet (addFormula a b).2.2 j = countGet b j) ∧
    (∀ j, j ∈ ((addFormula a b).2.1).map Prod.fst ↔
      (j ∈ a.map Prod.fst ∨ j ∈ b.map Prod.fst)) ∧
    (∀ j, j ∈ ((addFormula a b).2.2).map Prod.fst ↔
      (j ∈ a.map Prod.fst ∨ j ∈ b.map Prod.fst)) ∧
    (∀ j, countGet (subFormula a b).2.1 j = countGet a j) ∧
    (∀ j, countGet (subFormula a b).2.2 j = countGet b j) ∧
    (∀ j, j ∈ ((subFormula a b).2.1).map Prod.fst ↔
      (j ∈ a.map Prod.fst ∨ j ∈ b.map Prod.fst)) ∧
    (∀ j, j ∈ ((subFormula a b).2.2).map Prod.fst ↔
      (j ∈ a.map Prod.fst ∨ j ∈ b.map Prod.fst)) := by
  obtain ⟨a1, a2, a3, a4, a5, a6, a7⟩ := fold_opStep (· + ·) (unionKeys a b) [] a b
  obtain ⟨s1, s2, s3, s4, s5, s6, s7⟩ := fold_opStep (· - ·) (unionKeys a b) [] a b
  refine ⟨a1, a2, ?_, ?_, s1, s2, ?_, ?_⟩
  · intro j
    rw [show (addFormula a b).2.1 = ((unionKeys a b).foldl (opStep (· + ·)) ([], a, b)).2.1
      from rfl, a6 j, mem_unionKeys]
    tauto
  · intro j
    rw [show (addFormula a b).2.2 = ((unionKeys a b).foldl (opStep (· + ·)) ([], a, b)).2.2
      from rfl, a7 j, mem_unionKeys]
    tauto
  · intro j
    rw [show (subFormula a b).2.1 = ((unionKeys a b).foldl (opStep (· - ·)) ([], a, b)).2.1
      from rfl, s6 j, mem_unionKeys]
    tauto
  · intro j
    rw [show (subFormula a b).2.2 = ((unionKeys a b).foldl (opStep (· - ·)) ([], a, b)).2.2
      from rfl, s7 j, mem_unionKeys]
    tauto

/-- **Counterexample to claim C9 as stated.**  Adding `{H: 1} + {C: 1}`
mutates both operands: the `defaultdict` lookups insert `C: 0` into the
left operand and `H: 0` into the right one, so entries *are* added. -/
theorem claim_C9_counterexample :
    (addFormula [(['H'], 1)] [(['C'], 1)]).2.1 ≠ [(['H'], 1)] ∧
    (addFormula [(['H'], 1)] [(['C'], 1)]).2.2 ≠ [(['C'], 1)] ∧
    (addFormula [(['H'], 1)] [(['C'], 1)]).2.1 = [(['H'], 1), (['C'], 0)] := by
  refine ⟨by decide, by decide, by decide⟩

/-! ## Round-tripping the canonical serialization (claim C7) -/

/-- Everything in the first span component satisfies the predicate. -/
theorem span_all_fst {p : Char → Bool} {l : List Char} :
    ∀ x ∈ (l.span p).1, p x = true := by
  intro x hx
  rw [List.span_eq_take_drop] at hx
  exact List.mem_takeWhile_imp hx


/-- The second span component starts with a failing character. -/
theorem length_dropWhile_le (p : Char → Bool) (l : List Char) :
    (l.dropWhile p).length ≤ l.length := by
  induction l with
  | nil => simp
  | cons x t ih =>
    rw [List.dropWhile_cons]
    split
    · simp only [List.length_cons]
      omega
    · simp

theorem span_head_snd_false {p : Char → Bool} {l : List Char} {c : Char} {r : List Char}
    (h : (l.span p).2 = c :: r) : p c = false := by
  have h2 : l.dropWhile p = c :: r := by
    rw [List.span_eq_take_drop] at h
    exact h
  have h3 := List.head?_dropWhile_not p l
  rw [h2] at h3
  simpa using h3

/-- `span` over a list whose prefix all satisfies `p` and whose next
character fails it splits exactly there. -/
theorem span_of_append {p : Char → Bool} :
    ∀ (xs : List Char) {c : Char} (ys : List Char), (∀ x ∈ xs, p x = true) →
    p c = false → (xs ++ c :: ys).span p = (xs, c :: ys) := by
  intro xs
  induction xs with
  | nil => intro c ys _ hc; exact span_cons_false hc
  | cons x t ih =>
    intro c ys hall hc
    rw [List.cons_append, span_cons_true (hall x (by simp))]
    rw [ih ys (fun y hy => hall y (by simp [hy])) hc]

/-- The core of the count group consumes at least the closing paren. -/
theorem tryCountCore_length {neg : Bool} {u : List Char} {n : ℤ} {r : List Char}
    (h : tryCountCore neg u = some (n, r)) : r.length < u.length := by
  unfold tryCountCore at h
  have hdw : ((u.span Char.isDigit).2).length ≤ u.length := by
    rw [List.span_eq_take_drop]
    exact length_dropWhile_le _ _
  split at h
  · cases h
  · rename_i c3 r3 hsnd
    split at h
    · split at h
      · cases h
      · have hr : r = r3 := (congrArg Prod.snd (Option.some.inj h)).symm
        rw [hsnd] at hdw
        simp only [List.length_cons] at hdw
        rw [hr]
        omega
    · cases h

/-- A successful `tryCount` consumes at least one character. -/
theorem tryCount_length {l : List Char} {n : ℤ} {r : List Char}
    (h : tryCount l = some (n, r)) : r.length < l.length := by
  unfold tryCount at h
  split at h
  · exact absurd h (by simp)
  · rename_i c0 t
    split at h
    · split at h
      · have := tryCountCore_length h
        simp only [List.length_cons]
        omega
      · rename_i c2 t2
        split at h
        · have := tryCountCore_length h
          simp only [List.length_cons] at this ⊢
          omega
        · have := tryCountCore_length h
          simp only [List.length_cons] at this ⊢
          omega
    · exact absurd h (by simp)

/-- A successful canonical-pattern match consumes at least one character. -/
theorem matchAt_length {l : List Char} {m : List Char × ℤ} {rest : List Char}
    (h : matchAt l = some (m, rest)) : rest.length < l.length := by
  unfold matchAt at h
  have hsplit : (l.span Char.isDigit).1 ++ (l.span Char.isDigit).2 = l :=
    span_append Char.isDigit l
  split at h
  · exact absurd h (by simp)
  · rename_i c r2 hsnd
    split at h
    · have hlen : r2.length < l.length := by
        have := congrArg List.length hsplit
        rw [hsnd] at this
        simp only [List.length_append, List.length_cons] at this
        omega
      have hpl : ((r2.span Char.isLower).2).length ≤ r2.length := by
        rw [List.span_eq_take_drop]
        exact length_dropWhile_le _ _
      split at h
      · rename_i n r4 htc
        have := tryCount_length htc
        have hrr : rest = r4 := (congrArg Prod.snd (Option.some.inj h)).symm
        rw [hrr]
        omega
      · have hrr : rest = (r2.span Char.isLower).2 :=
          (congrArg Prod.snd (Option.some.inj h)).symm
        rw [hrr]
        omega
    · exact absurd h (by simp)

/-- The fuel in `findMatchesF` is irrelevant once it covers the input
length: each step consumes at least one character. -/
theorem findMatchesF_congr :
    ∀ (f1 f2 : ℕ) (l : List Char), l.length ≤ f1 → l.length ≤ f2 →
    findMatchesF f1 l = findMatchesF f2 l := by
  intro f1
  induction f1 with
  | zero =>
    intro f2 l h1 _
    have : l = [] := List.length_eq_zero.mp (by omega)
    rw [this]
    cases f2 with
    | zero => rfl
    | succ n => rfl
  | succ n ih =>
    intro f2 l h1 h2
    cases l with
    | nil =>
      cases f2 with
      | zero => rfl
      | succ k => rfl
    | cons x t =>
      cases f2 with
      | zero => simp at h2
      | succ k =>
        rw [findMatchesF_succ, findMatchesF_succ]
        cases hm : matchAt (x :: t) with
        | some pr =>
          obtain ⟨m1, r1⟩ := pr
          have hlen : r1.length < (x :: t).length := matchAt_length hm
          simp only [List.length_cons] at h1 h2 hlen
          show m1 :: findMatchesF n r1 = m1 :: findMatchesF k r1
          rw [ih k r1 (by omega) (by omega)]
        | none =>
          simp only [List.length_cons] at h1 h2
          show findMatchesF n t = findMatchesF k t
          exact ih k t (by omega) (by omega)

/-- Code point and digit-class of the characters `natChars` emits. -/
theorem char_digit_facts :
    ∀ d : ℕ, d < 10 →
      ((Char.ofNat (48 + d)).toNat = 48 + d ∧ (Char.ofNat (48 + d)).isDigit = true) := by
  decide

/-- `natCharsGo` produces exactly the base-10 digit characters, most
significant first, in front of the accumulator. -/
theorem natCharsGo_eq :
    ∀ (fuel n : ℕ) (acc : List Char), n < fuel →
    natCharsGo fuel n acc
      = ((Nat.digits 10 n).reverse.map (fun d => Char.ofNat (48 + d))) ++ acc := by
  intro fuel
  induction fuel with
  | zero => intro n acc h; omega
  | succ f ih =>
    intro n acc h
    by_cases hn : n = 0
    · rw [hn]
      simp [natCharsGo]
    · have hstep : natCharsGo (f + 1) n acc
          = natCharsGo f (n / 10) (Char.ofNat (48 + n % 10) :: acc) := by
        rw [show natCharsGo (f + 1) n acc
            = if n = 0 then acc
              else natCharsGo f (n / 10) (Char.ofNat (48 + n % 10) :: acc) from rfl,
          if_neg hn]
      rw [hstep]
      have hdiv : n / 10 < f := by
        have h1 : n / 10 < n := Nat.div_lt_self (Nat.pos_of_ne_zero hn) (by omega)
        omega
      rw [ih (n / 10) (Char.ofNat (48 + n % 10) :: acc) hdiv]
      rw [Nat.digits_def' (by omega : 1 < 10) (Nat.pos_of_ne_zero hn)]
      simp [List.map_append]

/-- The digits of a natural number rendered and re-read with the scanner's
accumulator give back the number (shifted into position `a`). -/
theorem foldl_digits (ds : List ℕ) (hds : ∀ d ∈ ds, d < 10) :
    ∀ a : ℤ,
    ((ds.reverse.map (fun d => Char.ofNat (48 + d))).foldl
      (fun x ch => x * 10 + ((ch.toNat : ℤ) - 48)) a)
      = a * 10 ^ ds.length + ((Nat.ofDigits 10 ds : ℕ) : ℤ) := by
  induction ds with
  | nil =>
    intro a
    simp [Nat.ofDigits]
  | cons d ds ih =>
    intro a
    rw [List.reverse_cons, List.map_append, List.foldl_append]
    rw [ih (fun x hx => hds x (by simp [hx])) a]
    have hd := hds d (by simp)
    have hchar := (char_digit_facts d hd).1
    simp only [List.map_cons, List.map_nil, List.foldl_cons, List.foldl_nil, hchar]
    rw [show Nat.ofDigits 10 (d :: ds) = d + 10 * Nat.ofDigits 10 ds from rfl]
    push_cast
    rw [List.length_cons]
    ring

/-- `natChars` renders a natural number to its decimal digits and the
scanner's digit fold reads the same number back. -/
theorem natChars_val (n : ℕ) : digitsVal (natChars n) = (n : ℤ) := by
  unfold natChars digitsVal
  by_cases hn : n = 0
  · rw [if_pos hn, hn]
    decide
  · rw [if_neg hn]
    rw [natCharsGo_eq (n + 1) n [] (by omega)]
    rw [List.append_nil]
    have := foldl_digits (Nat.digits 10 n) (fun d hd => Nat.digits_lt_base (by omega) hd) 0
    rw [this]
    rw [Nat.ofDigits_digits 10 n]
    ring

/-- Every character of `natChars n` is a digit. -/
theorem natChars_digits (n : ℕ) : ∀ c ∈ natChars n, c.isDigit = true := by
  unfold natChars
  by_cases hn : n = 0
  · rw [if_pos hn]
    intro c hc
    simp only [List.mem_singleton] at hc
    rw [hc]
    decide
  · rw [if_neg hn]
    rw [natCharsGo_eq (n + 1) n [] (by omega), List.append_nil]
    intro c hc
    obtain ⟨d, hd, hdc⟩ := List.mem_map.mp hc
    have hd10 : d < 10 := Nat.digits_lt_base (by omega) (List.mem_reverse.mp hd)
    rw [← hdc]
    exact (char_digit_facts d hd10).2

/-- `natChars` never renders to the empty string. -/
theorem natChars_ne_nil (n : ℕ) : natChars n ≠ [] := by
  unfold natChars
  by_cases hn : n = 0
  · rw [if_pos hn]
    simp
  · rw [if_neg hn]
    rw [natCharsGo_eq (n + 1) n [] (by omega), List.append_nil]
    intro hnil
    have := congrArg List.length hnil
    simp only [List.length_map, List.length_reverse, List.length_nil] at this
    exact hn (Nat.digits_eq_nil_iff_eq_zero.mp (List.length_eq_zero.mp this))

/-- The count group matches exactly a rendered integer in parentheses. -/
theorem tryCount_render (n : ℤ) (rest : List Char) :
    tryCount ('(' :: (intChars n ++ ')' :: rest)) = some (n, rest) := by
  by_cases hneg : n < 0
  · have hint : intChars n = '-' :: natChars (-n).toNat := by
      unfold intChars
      rw [if_pos hneg]
    rw [hint, List.cons_append]
    show tryCountCore true ((natChars (-n).toNat) ++ ')' :: rest) = some (n, rest)
    unfold tryCountCore
    rw [span_of_append (natChars (-n).toNat) rest (natChars_digits _) (by decide)]
    show (if (')' : Char) = ')' then
        if natChars (-n).toNat = [] then none
        else some (condNeg true (digitsVal (natChars (-n).toNat)), rest)
      else none) = some (n, rest)
    rw [if_pos rfl, if_neg (natChars_ne_nil _), natChars_val]
    unfold condNeg
    rw [if_pos rfl]
    congr 1
    rw [Prod.mk.injEq]
    refine ⟨by omega, rfl⟩
  · have hint : intChars n = natChars n.toNat := by
      unfold intChars
      rw [if_neg hneg]
    rw [hint]
    obtain ⟨d, ds, hnat⟩ : ∃ d ds, natChars n.toNat = d :: ds := by
      cases hx : natChars n.toNat with
      | nil => exact absurd hx (natChars_ne_nil _)
      | cons d ds => exact ⟨d, ds, rfl⟩
    have hd : d.isDigit = true := by
      have := natChars_digits n.toNat d
      rw [hnat] at this
      exact this (by simp)
    have hdm : ¬ d = '-' := by
      intro hcontra
      rw [hcontra] at hd
      exact absurd hd (by decide)
    rw [hnat, List.cons_append]
    show (if d = '-' then tryCountCore true (ds ++ ')' :: rest)
      else tryCountCore false (d :: (ds ++ ')' :: rest))) = some (n, rest)
    rw [if_neg hdm]
    have hback : d :: (ds ++ ')' :: rest) = natChars n.toNat ++ ')' :: rest := by
      rw [hnat, List.cons_append]
    rw [hback]
    unfold tryCountCore
    rw [span_of_append (natChars n.toNat) rest (natChars_digits _) (by decide)]
    show (if (')' : Char) = ')' then
        if natChars n.toNat = [] then none
        else some (condNeg false (digitsVal (natChars n.toNat)), rest)
      else none) = some (n, rest)
    rw [if_pos rfl, if_neg (natChars_ne_nil _), natChars_val]
    unfold condNeg
    rw [if_neg (by decide : ¬(false = true))]
    congr 1
    rw [Prod.mk.injEq]
    refine ⟨by omega, rfl⟩

/-- Decompose a well-formed symbol into digit prefix, uppercase letter and
lowercase tail. -/
theorem wfSymB_decomp {s : List Char} (h : wfSymB s = true) :
    ∃ ds c ls, s = ds ++ c :: ls ∧ (∀ x ∈ ds, Char.isDigit x = true) ∧
      Char.isDigit c = false ∧ c.isUpper = true ∧ (∀ x ∈ ls, Char.isLower x = true) := by
  unfold wfSymB at h
  cases hsnd : (s.span Char.isDigit).2 with
  | nil => rw [hsnd] at h; cases h
  | cons c ls =>
    rw [hsnd] at h
    have hcu : c.isUpper = true ∧ ls.all Char.isLower = true := by
      rw [Bool.and_eq_true] at h
      exact h
    refine ⟨(s.span Char.isDigit).1, c, ls, ?_, ?_, ?_, hcu.1, ?_⟩
    · rw [← hsnd]
      exact (span_append Char.isDigit s).symm
    · exact fun x hx => span_all_fst x hx
    · exact span_head_snd_false hsnd
    · intro x hx
      exact List.all_eq_true.mp hcu.2 x hx

/-- The canonical pattern matches a rendered `symbol(count)` token at the
head of the input, producing exactly the symbol and the count. -/
theorem matchAt_render (ds : List Char) (c : Char) (ls : List Char) (n : ℤ) (rest : List Char)
    (hds : ∀ x ∈ ds, Char.isDigit x = true) (hcd : Char.isDigit c = false)
    (hcu : c.isUpper = true) (hls : ∀ x ∈ ls, Char.isLower x = true) :
    matchAt (ds ++ c :: (ls ++ '(' :: (intChars n ++ ')' :: rest)))
      = some ((ds ++ c :: ls, n), rest) := by
  unfold matchAt
  rw [span_of_append ds (ls ++ '(' :: (intChars n ++ ')' :: rest)) hds hcd]
  show (if c.isUpper = true then
      match tryCount ((ls ++ '(' :: (intChars n ++ ')' :: rest)).span Char.isLower).2 with
      | some (n2, r4) =>
        some ((ds ++ c :: ((ls ++ '(' :: (intChars n ++ ')' :: rest)).span Char.isLower).1, n2), r4)
      | none =>
        some ((ds ++ c :: ((ls ++ '(' :: (intChars n ++ ')' :: rest)).span Char.isLower).1, 1),
          ((ls ++ '(' :: (intChars n ++ ')' :: rest)).span Char.isLower).2)
    else none) = some ((ds ++ c :: ls, n), rest)
  rw [if_pos hcu]
  rw [span_of_append ls ((intChars n ++ ')' :: rest)) hls (by decide)]
  show (match tryCount ('(' :: (intChars n ++ ')' :: rest)) with
      | some (n2, r4) => some ((ds ++ c :: ls, n2), r4)
      | none => some ((ds ++ c :: ls, 1), '(' :: (intChars n ++ ')' :: rest))) = _
  rw [tryCount_render n rest]

/-- `re.findall` peels one rendered token off the front of the input. -/
theorem findMatches_token (p : List Char × ℤ) (rest : List Char) (hwf : wfSymB p.1 = true) :
    findMatches (renderPair p ++ rest) = p :: findMatches rest := by
  obtain ⟨ds, c, ls, hs, hds, hcd, hcu, hls⟩ := wfSymB_decomp hwf
  have hform : renderPair p ++ rest = ds ++ c :: (ls ++ '(' :: (intChars p.2 ++ ')' :: rest)) := by
    unfold renderPair
    rw [hs]
    simp [List.append_assoc]
  have hmatch : matchAt (renderPair p ++ rest) = some ((p.1, p.2), rest) := by
    rw [hform, matchAt_render ds c ls p.2 rest hds hcd hcu hls, ← hs]
  obtain ⟨k, hk⟩ : ∃ k, (renderPair p ++ rest).length = k + 1 := by
    have : (renderPair p ++ rest).length ≠ 0 := by
      rw [hform]
      simp
    exact ⟨(renderPair p ++ rest).length - 1, by omega⟩
  have hrest : rest.length ≤ k := by
    have := matchAt_length hmatch
    omega
  unfold findMatches
  rw [hk, findMatchesF_succ, hmatch]
  show (p.1, p.2) :: findMatchesF k rest = p :: findMatchesF rest.length rest
  rw [findMatchesF_congr k rest.length rest hrest (le_refl _)]

/-- `re.findall` recovers an entire rendered token list. -/
theorem findMatches_tokens :
    ∀ ts : List (List Char × ℤ), (∀ p ∈ ts, wfSymB p.1 = true) →
    findMatches (ts.foldr (fun p acc => renderPair p ++ acc) []) = ts := by
  intro ts
  induction ts with
  | nil => intro _; rfl
  | cons p t ih =>
    intro hwf
    rw [List.foldr_cons, findMatches_token p _ (hwf p (by simp))]
    rw [ih (fun q hq => hwf q (by simp [hq]))]

/-- Adding a fresh key to a count dict appends it. -/
theorem dAdd_not_mem (d : List (List Char × ℤ)) (k : List Char) (n : ℤ)
    (h : k ∉ d.map Prod.fst) : dAdd d k n = d ++ [(k, n)] := by
  induction d with
  | nil => rfl
  | cons p t ih =>
    unfold dAdd
    have hk : ¬ p.1 = k := by
      intro hcontra
      exact h (by simp [hcontra])
    rw [if_neg hk, ih (fun hmem => h (by simp [hmem]))]
    rfl

/-- Folding distinct fresh keys into a count dict just appends them. -/
theorem buildCounts_append_of_nodup :
    ∀ (ms d : List (List Char × ℤ)),
    (∀ k ∈ ms.map Prod.fst, k ∉ d.map Prod.fst) → (ms.map Prod.fst).Nodup →
    ms.foldl (fun d p => dAdd d p.1 p.2) d = d ++ ms := by
  intro ms
  induction ms with
  | nil => intro d _ _; simp
  | cons p t ih =>
    intro d hfresh hnd
    rw [List.foldl_cons]
    rw [dAdd_not_mem d p.1 p.2 (hfresh p.1 (by simp))]
    rw [List.map_cons, List.nodup_cons] at hnd
    have hfresh2 : ∀ k ∈ t.map Prod.fst, k ∉ (d ++ [(p.1, p.2)]).map Prod.fst := by
      intro q hq
      rw [List.map_append, List.mem_append]
      intro hmem
      rcases hmem with hmem | hmem
      · exact hfresh q (by simp [hq]) hmem
      · simp only [List.map_cons, List.map_nil, List.mem_singleton] at hmem
        rw [hmem] at hq
        exact hnd.1 hq
    rw [ih (d ++ [(p.1, p.2)]) hfresh2 hnd.2]
    simp

/-- On a token list with distinct keys, `buildCounts` is the identity. -/
theorem buildCounts_id (ms : List (List Char × ℤ)) (h : (ms.map Prod.fst).Nodup) :
    buildCounts ms = ms := by
  unfold buildCounts
  rw [buildCounts_append_of_nodup ms [] (by simp) h]
  rfl

/-- In a dict with distinct keys, a present pair is what lookup returns. -/
theorem assocLookup_of_mem_nodup :
    ∀ (d : List (List Char × ℤ)) (k : List Char) (v : ℤ), (k, v) ∈ d →
    (d.map Prod.fst).Nodup → assocLookup d k = some v := by
  intro d
  induction d with
  | nil => intro k v hmem _; exact absurd hmem (by simp)
  | cons p t ih =>
    intro k v hmem hnd
    rw [List.map_cons, List.nodup_cons] at hnd
    rw [assocLookup_cons]
    rcases List.mem_cons.mp hmem with rfl | hmem2
    · rw [if_pos rfl]
    · by_cases hk : p.1 = k
      · exfalso
        apply hnd.1
        rw [hk]
        exact List.mem_map.mpr ⟨(k, v), hmem2, rfl⟩
      · rw [if_neg hk]
        exact ih k v hmem2 hnd.2

/-- A successful lookup exhibits a member pair. -/
theorem assocLookup_some_mem :
    ∀ (d : List (List Char × ℤ)) (k : List Char) (v : ℤ),
    assocLookup d k = some v → (k, v) ∈ d := by
  intro d
  induction d with
  | nil => intro k v h; cases h
  | cons p t ih =>
    intro k v h
    rw [assocLookup_cons] at h
    by_cases hk : p.1 = k
    · rw [if_pos hk] at h
      have hv : p.2 = v := Option.some.inj h
      have : p = (k, v) := by
        rw [← hk, ← hv]
      rw [← this]
      exact List.mem_cons_self p t
    · rw [if_neg hk] at h
      right
      exact ih k v h

/-- Permuting a dict with distinct keys leaves its mapping unchanged. -/
theorem countGet_eq_of_perm (d1 d2 : List (List Char × ℤ)) (hp : d1.Perm d2)
    (hnd : (d1.map Prod.fst).Nodup) (k : List Char) : countGet d1 k = countGet d2 k := by
  have hnd2 : (d2.map Prod.fst).Nodup := ((hp.map Prod.fst).nodup_iff).mp hnd
  unfold countGet
  cases h1 : assocLookup d1 k with
  | some v =>
    have hmem : (k, v) ∈ d2 := hp.mem_iff.mp (assocLookup_some_mem d1 k v h1)
    rw [assocLookup_of_mem_nodup d2 k v hmem hnd2]
  | none =>
    have hknot : k ∉ d1.map Prod.fst := (assocLookup_none_iff d1 k).mp h1
    have hknot2 : k ∉ d2.map Prod.fst := by
      intro hmem
      exact hknot ((hp.map Prod.fst).mem_iff.mpr hmem)
    rw [(assocLookup_none_iff d2 k).mpr hknot2]

/-- **Claim C7.**  For every formula dict with well-formed symbols, distinct
keys and non-zero integer counts (negative counts included), parsing the
canonical serialization gives back exactly the formula: the parsed entry
list is the key-sorted entry list of `f` (a permutation of `f`), and the
symbol-to-count mapping is identical to that of `f`. -/
theorem claim_C7 (f : List (List Char × ℤ))
    (hwf : ∀ p ∈ f, wfSymB p.1 = true)
    (hnz : ∀ p ∈ f, p.2 ≠ 0)
    (hnd : (f.map Prod.fst).Nodup) :
    parseClassFormula (serializeFormula f) = sortByKey f ∧
    List.Perm (sortByKey f) f ∧
    (∀ k, countGet (parseClassFormula (serializeFormula f)) k = countGet f k) := by
  have hperm : List.Perm (sortByKey f) f := List.perm_insertionSort _ f
  have hwf2 : ∀ p ∈ sortByKey f, wfSymB p.1 = true := fun p hp => hwf p (hperm.mem_iff.mp hp)
  have hnz2 : ∀ p ∈ sortByKey f, p.2 ≠ 0 := fun p hp => hnz p (hperm.mem_iff.mp hp)
  have hnd2 : ((sortByKey f).map Prod.fst).Nodup := ((hperm.map Prod.fst).nodup_iff).mpr hnd
  have hfilter : (sortByKey f).filter (fun p => p.2 ≠ 0) = sortByKey f := by
    apply List.filter_eq_self.mpr
    intro p hp
    exact decide_eq_true (hnz2 p hp)
  have hser : serializeFormula f = (sortByKey f).foldr (fun p acc => renderPair p ++ acc) [] := by
    unfold serializeFormula
    rw [hfilter]
  have hparse : parseClassFormula (serializeFormula f) = sortByKey f := by
    unfold parseClassFormula
    rw [hser, findMatches_tokens (sortByKey f) hwf2]
    exact buildCounts_id (sortByKey f) hnd2
  refine ⟨hparse, hperm, ?_⟩
  intro k
  rw [hparse]
  exact countGet_eq_of_perm (sortByKey f) f hperm hnd2 k

/-- Witness for `claim_C7`: a formula with an isotope-labelled symbol and a
negative count round-trips. -/
theorem claim_C7_witness :
    parseClassFormula (serializeFormula [(['H'], 2), (['1', '3', 'C'], -1)])
      = sortByKey [(['H'], 2), (['1', '3', 'C'], -1)] ∧
    countGet (parseClassFormula (serializeFormula [(['H'], 2), (['1', '3', 'C'], -1)]))
      ['1', '3', 'C'] = countGet [(['H'], 2), (['1', '3', 'C'], -1)] ['1', '3', 'C'] :=
  ⟨(claim_C7 [(['H'], 2), (['1', '3', 'C'], -1)] (by decide) (by decide) (by decide)).1,
   (claim_C7 [(['H'], 2), (['1', '3', 'C'], -1)] (by decide) (by decide) (by decide)).2.2
     ['1', '3', 'C']⟩
